import Mathlib

/-!
# TPC-H Q1 scan-and-aggregate engine (`queries/tpch_q1.cc`)

A shallow embedding of the query runner: the per-tuple aggregation
(`QueryRunner::ProcessTuples`), the single-threaded merge and sort
(`QueryRunner::DoPostProcessing`), the morsel dispatch and worker lifetime of
`QueryRunner::StartProcessing`, the task fan-out of the asynchronous worker and
of `Cache::Populate`, and the cached-fraction sweep of `main`; and of the
freelist build of `FixedAllocator` (`cppcoro/allocator.hpp`).

Conventions of the embedding.
* `std::vector<std::unique_ptr<HashTableEntry>>` is a map from slot index to an
  optional entry; a null `unique_ptr` is `none`.
* `uint32_t` and `uint64_t` arithmetic is arithmetic on `Nat` reduced modulo
  `2^32` and `2^64` at every operation.
* Dereferencing a null pointer, or calling `front()` on an empty vector, has no
  defined behaviour; functions that can do so return `Option` and yield `none`.
-/

namespace TpchQ1

/-! ## Data model -/

/-- Modelled from the spec: `storage/types.h` is not part of the sources. A
`Char` is one byte used as an unsigned group-key component (the hash table is
addressed by the 16-bit value `(l_returnflag << 8) | l_linestatus`). -/
abbrev Char := Fin 256

/-- Modelled from the spec: `storage/types.h` is not part of the sources. A
`Numeric<P,S>` is its raw integer mantissa; `+`, `-` and `+=` act on mantissas
of equal scale and `*` multiplies mantissas (the scales add). Overflow of the
64-bit mantissa is not modelled. -/
abbrev Numeric := Int

/-- Modelled from the spec: `storage/types.h` is not part of the sources. A
`Date` is a day number, compared with `<=`. -/
abbrev Date := Int

/-- One column-store page (`LineitemPageQ1`, declared in the missing
`storage/schema.h`): the count of valid rows and the parallel column arrays,
each read at a position `i`. -/
structure LineitemPageQ1 where
  num_tuples : Nat
  l_shipdate : Nat → Date
  l_returnflag : Nat → Char
  l_linestatus : Nat → Char
  l_quantity : Nat → Numeric
  l_extendedprice : Nat → Numeric
  l_discount : Nat → Numeric
  l_tax : Nat → Numeric

/-- The aggregate state of one group (`struct HashTableEntry`). -/
@[ext]
structure HashTableEntry where
  sum_qty : Numeric
  sum_base_price : Numeric
  sum_disc : Numeric
  sum_disc_price : Numeric
  sum_charge : Numeric
  count : Nat
  l_returnflag : Char
  l_linestatus : Char
deriving DecidableEq, Repr

/-- `using HashTable = std::vector<std::unique_ptr<HashTableEntry>>`. -/
abbrev HashTable := Nat → Option HashTableEntry

/-- `using ValidHashTableIndexes = std::vector<uint32_t>`. -/
abbrev ValidHashTableIndexes := List Nat

/-- Number of slots given to every thread-local table by the constructor
(`hash_table.resize(1ull << 16)`). -/
def kHashTableSize : Nat := 1 <<< 16

/-- A table as the `QueryRunner` constructor leaves it: every slot null. -/
def emptyHashTable : HashTable := fun _ => none

/-- The values of the columns of `page` at position `i`. -/
structure Tuple where
  l_shipdate : Date
  l_returnflag : Char
  l_linestatus : Char
  l_quantity : Numeric
  l_extendedprice : Numeric
  l_discount : Numeric
  l_tax : Numeric
deriving DecidableEq, Repr

/-- Reads position `i` of every column of `page`. -/
def LineitemPageQ1.tuple (page : LineitemPageQ1) (i : Nat) : Tuple :=
  { l_shipdate := page.l_shipdate i
    l_returnflag := page.l_returnflag i
    l_linestatus := page.l_linestatus i
    l_quantity := page.l_quantity i
    l_extendedprice := page.l_extendedprice i
    l_discount := page.l_discount i
    l_tax := page.l_tax i }

/-! ## `QueryRunner::ProcessTuples` -/

/-- The slot computed at lines 123-124:
`uint32_t hash_table_index = l_returnflag; hash_table_index = (hash_table_index << 8) + l_linestatus`. -/
def hashTableIndex (l_returnflag l_linestatus : Char) : Nat :=
  (((l_returnflag.val % 2 ^ 32) <<< 8) % 2 ^ 32 + l_linestatus.val) % 2 ^ 32

/-- `Numeric<12, 2> one{int64_t{100}}`: the raw mantissa 100. -/
def one : Numeric := 100

/-- The entry created at lines 127-130: `std::make_unique<HashTableEntry>()`
value-initialises every field, then the two group columns are stamped and the
count is set to zero. -/
def freshEntry (l_returnflag l_linestatus : Char) : HashTableEntry :=
  { sum_qty := 0, sum_base_price := 0, sum_disc := 0, sum_disc_price := 0,
    sum_charge := 0, count := 0,
    l_returnflag := l_returnflag, l_linestatus := l_linestatus }

/-- Lines 134-141: the updates applied to `*entry` for one tuple. `castM2` is
`Numeric<12,4>::CastM2` (declared in the missing `storage/types.h`). -/
def accumulate (castM2 : Numeric → Numeric) (entry : HashTableEntry) (t : Tuple) :
    HashTableEntry :=
  let common_term : Numeric := t.l_extendedprice * (one - t.l_discount)
  { entry with
    count := (entry.count + 1) % 2 ^ 32
    sum_qty := entry.sum_qty + t.l_quantity
    sum_base_price := entry.sum_base_price + t.l_extendedprice
    sum_disc := entry.sum_disc + t.l_discount
    sum_disc_price := entry.sum_disc_price + common_term
    sum_charge := entry.sum_charge + castM2 common_term * (one + t.l_tax) }

/-- The body of the loop of `ProcessTuples` (lines 122-142) for one tuple. -/
def processTuple (castM2 : Numeric → Numeric) (high_date : Date)
    (st : HashTable × ValidHashTableIndexes) (t : Tuple) :
    HashTable × ValidHashTableIndexes :=
  if t.l_shipdate ≤ high_date then
    let hash_table_index := hashTableIndex t.l_returnflag t.l_linestatus
    match st.1 hash_table_index with
    | some entry =>
      (Function.update st.1 hash_table_index (some (accumulate castM2 entry t)), st.2)
    | none =>
      (Function.update st.1 hash_table_index
        (some (accumulate castM2 (freshEntry t.l_returnflag t.l_linestatus) t)),
       st.2 ++ [hash_table_index])
  else st

/-- `QueryRunner::ProcessTuples`: the loop `for (i = 0; i != page.num_tuples; ++i)`
over the positions of the page, threading the table and its valid-index list. -/
def ProcessTuples (castM2 : Numeric → Numeric) (page : LineitemPageQ1)
    (hash_table : HashTable) (valid_hash_table_indexes : ValidHashTableIndexes)
    (high_date : Date) : HashTable × ValidHashTableIndexes :=
  (List.range page.num_tuples).foldl
    (fun st i => processTuple castM2 high_date st (page.tuple i))
    (hash_table, valid_hash_table_indexes)

/-! ## Vocabulary for stating what a table holds -/

/-- Tuple `t` passes the date filter and is hashed to slot `idx`. -/
def qualifies (high_date : Date) (idx : Nat) (t : Tuple) : Bool :=
  decide (t.l_shipdate ≤ high_date) &&
    decide (hashTableIndex t.l_returnflag t.l_linestatus = idx)

/-- The entry reached from `entry` by accumulating the tuples of `q` in order. -/
def foldEntry (castM2 : Numeric → Numeric) (entry : HashTableEntry) (q : List Tuple) :
    HashTableEntry :=
  q.foldl (accumulate castM2) entry

/-- The content of a slot that held `base` after the tuples `q`, all hashed to
that slot, have been aggregated into it. -/
def slotAfter (castM2 : Numeric → Numeric) (base : Option HashTableEntry) (q : List Tuple) :
    Option HashTableEntry :=
  match q with
  | [] => base
  | t :: _ => some (foldEntry castM2 (base.getD (freshEntry t.l_returnflag t.l_linestatus)) q)

/-- The sparsity witness: the valid-index list has no duplicates and lists
exactly the non-empty slots. -/
def Sparse (w : HashTable × ValidHashTableIndexes) : Prop :=
  w.2.Nodup ∧ ∀ idx, idx ∈ w.2 ↔ w.1 idx ≠ none

/-- Every entry carries the group columns of the slot that holds it. -/
def Stamped (hash_table : HashTable) : Prop :=
  ∀ idx entry, hash_table idx = some entry →
    hashTableIndex entry.l_returnflag entry.l_linestatus = idx

/-! ## `QueryRunner::DoPostProcessing`

The body guarded by `if (do_work)`; printing does not change the result and is
left out. -/

/-- A worker's pair `thread_local_hash_tables_[i]`,
`thread_local_valid_hash_table_indexes_[i]`. -/
abbrev Worker := HashTable × ValidHashTableIndexes

/-- Lines 296-301: the sum-merge of `*local_entry` into `*result_entry`. -/
def mergeEntry (result_entry local_entry : HashTableEntry) : HashTableEntry :=
  { result_entry with
    sum_qty := result_entry.sum_qty + local_entry.sum_qty
    sum_base_price := result_entry.sum_base_price + local_entry.sum_base_price
    sum_disc := result_entry.sum_disc + local_entry.sum_disc
    sum_disc_price := result_entry.sum_disc_price + local_entry.sum_disc_price
    sum_charge := result_entry.sum_charge + local_entry.sum_charge
    count := (result_entry.count + local_entry.count) % 2 ^ 32 }

/-- The variables of the inner merge loop: worker 0's table and valid-index
list, and the table of the worker being merged, which loses the entries that
are moved out of it. -/
structure MergeState where
  result_hash_table : HashTable
  result_valid_hash_table_indexes : ValidHashTableIndexes
  local_hash_table : HashTable

/-- Lines 293-305, the body of the inner loop for one `valid_hash_table_index`.
With a non-null `result_entry` the fields of `*local_entry` are read, which is
undefined for a null `local_entry` (`none`); otherwise `local_entry` is moved
into the result slot, leaving the local slot null, and the index is appended. -/
def mergeIndex (st : MergeState) (valid_hash_table_index : Nat) : Option MergeState :=
  match st.result_hash_table valid_hash_table_index with
  | some result_entry =>
    match st.local_hash_table valid_hash_table_index with
    | some local_entry =>
      some { st with
        result_hash_table :=
          Function.update st.result_hash_table valid_hash_table_index
            (some (mergeEntry result_entry local_entry)) }
    | none => none
  | none =>
    some
      { result_hash_table :=
          Function.update st.result_hash_table valid_hash_table_index
            (st.local_hash_table valid_hash_table_index)
        result_valid_hash_table_indexes :=
          st.result_valid_hash_table_indexes ++ [valid_hash_table_index]
        local_hash_table :=
          Function.update st.local_hash_table valid_hash_table_index none }

/-- Lines 291-306: the inner loop over the valid indexes of one worker. -/
def mergeIndexes : MergeState → List Nat → Option MergeState
  | st, [] => some st
  | st, valid_hash_table_index :: rest =>
    match mergeIndex st valid_hash_table_index with
    | some st' => mergeIndexes st' rest
    | none => none

/-- One iteration of the outer loop (lines 289-307): worker `i` is merged into
worker 0. -/
def mergeWorker (result : Worker) (worker : Worker) : Option Worker :=
  match mergeIndexes ⟨result.1, result.2, worker.1⟩ worker.2 with
  | some st => some (st.result_hash_table, st.result_valid_hash_table_indexes)
  | none => none

/-- The outer loop over the workers `1 .. num_threads_ - 1`. -/
def mergeWorkers : Worker → List Worker → Option Worker
  | result, [] => some result
  | result, worker :: rest =>
    match mergeWorker result worker with
    | some result' => mergeWorkers result' rest
    | none => none

/-- Lines 285-307: worker 0 is `front()` of the two vectors (undefined for no
workers), and every other worker is merged into it in index order. -/
def mergeLoop : List Worker → Option Worker
  | [] => none
  | worker0 :: rest => mergeWorkers worker0 rest

/-- Lines 309-313: `result_entries` holds the pointer of every listed slot. The
comparator and the printer dereference them, so a null pointer among them
leaves the result undefined (`none`). -/
def collectEntries (result_hash_table : HashTable) : List Nat → Option (List HashTableEntry)
  | [] => some []
  | valid_hash_table_index :: rest =>
    match result_hash_table valid_hash_table_index, collectEntries result_hash_table rest with
    | some entry, some entries => some (entry :: entries)
    | _, _ => none

/-- The comparator of lines 315-318, `std::pair(lhs->l_returnflag,
lhs->l_linestatus) < std::pair(rhs->l_returnflag, rhs->l_linestatus)`. -/
def entryLess (lhs rhs : HashTableEntry) : Prop :=
  lhs.l_returnflag < rhs.l_returnflag ∨
    (lhs.l_returnflag = rhs.l_returnflag ∧ lhs.l_linestatus < rhs.l_linestatus)

instance : DecidableRel entryLess := fun lhs rhs => by
  unfold entryLess
  infer_instance

/-- `std::sort` with the comparator `entryLess`, as an insertion sort: `lhs` is
placed before `rhs` when `rhs` is not less than `lhs`. -/
def stdSort (entries : List HashTableEntry) : List HashTableEntry :=
  entries.insertionSort (fun lhs rhs => ¬ entryLess rhs lhs)

/-- `QueryRunner::DoPostProcessing` with `do_work` set: the merge loop, the
collection of the result entries and the sort. The value is the sorted
`result_entries`. -/
def DoPostProcessing (workers : List Worker) : Option (List HashTableEntry) :=
  match mergeLoop workers with
  | some result =>
    match collectEntries result.1 result.2 with
    | some result_entries => some (stdSort result_entries)
    | none => none
  | none => none

/-- What the merge leaves in a result slot holding `result_entry` when the
worker being merged holds `local_entry` in the same slot. -/
def mergeSlot : Option HashTableEntry → Option HashTableEntry → Option HashTableEntry
  | some result_entry, some local_entry => some (mergeEntry result_entry local_entry)
  | some result_entry, none => some result_entry
  | none, local_entry => local_entry

/-- The table obtained by merging the slots of all workers, first worker first. -/
def mergedTable (workers : List Worker) : HashTable :=
  fun idx => (workers.map (fun w => w.1 idx)).foldl mergeSlot none

/-- The non-empty slots of a table in increasing slot order. -/
def entriesInSlotOrder (hash_table : HashTable) : List HashTableEntry :=
  (List.range kHashTableSize).filterMap hash_table

/-- A worker's run: `ProcessTuples` applied to its pages one after the other
(the calls made by `ProcessPages` and `AsyncProcessPages` with `do_work` set),
starting from the table and list built by the constructor. -/
def runWorker (castM2 : Numeric → Numeric) (high_date : Date) (pages : List LineitemPageQ1) :
    Worker :=
  pages.foldl (fun w page => ProcessTuples castM2 page w.1 w.2 high_date) (emptyHashTable, [])

/-- The tuples of a sequence of pages, in processing order. -/
def tuplesOf (pages : List LineitemPageQ1) : List Tuple :=
  pages.flatMap (fun page => (List.range page.num_tuples).map page.tuple)

/-! ## Concrete inputs -/

/-- Modelled from the spec: `Numeric<12,4>::CastM2` lives in the missing
`storage/types.h`; the spec says only that it rescales to scale 2. This
instance drops the last two digits of the mantissa (C++ integer division). It
is used to run concrete inputs only: every statement below holds for an
arbitrary `castM2`. -/
def castM2Trunc (v : Numeric) : Numeric := Int.tdiv v 100

/-- A page holding the listed tuples at positions `0, 1, ...`; the trailing
positions of the columns are zero. -/
def pageOfTuples (tuples : List Tuple) : LineitemPageQ1 :=
  let zero : Tuple := ⟨0, 0, 0, 0, 0, 0, 0⟩
  { num_tuples := tuples.length
    l_shipdate := fun i => (tuples.getD i zero).l_shipdate
    l_returnflag := fun i => (tuples.getD i zero).l_returnflag
    l_linestatus := fun i => (tuples.getD i zero).l_linestatus
    l_quantity := fun i => (tuples.getD i zero).l_quantity
    l_extendedprice := fun i => (tuples.getD i zero).l_extendedprice
    l_discount := fun i => (tuples.getD i zero).l_discount
    l_tax := fun i => (tuples.getD i zero).l_tax }

/-- The day number of 1998-09-02 counted from 1970-01-01. -/
def scenarioHighDate : Date := 10471

/-- One page with three tuples: two of group `(A, F)` shipped on or before the
high date and one of group `(N, O)` shipped after it. -/
def scenarioPage : LineitemPageQ1 :=
  pageOfTuples
    [ ⟨10470, 65, 70, 1700, 2116823, 4, 2⟩,
      ⟨10472, 78, 79, 3600, 4559820, 9, 6⟩,
      ⟨10471, 65, 70, 800, 1000, 10, 0⟩ ]

/-- A second page: one tuple of group `(N, O)` and one of group `(A, F)`, both
shipped before the high date. -/
def scenarioPage2 : LineitemPageQ1 :=
  pageOfTuples
    [ ⟨10000, 78, 79, 2800, 300000, 5, 8⟩,
      ⟨10001, 65, 70, 100, 5000, 0, 3⟩ ]

/-! ## Morsel dispatch in `QueryRunner::StartProcessing` -/

/-- One morsel handed to `ProcessPages` or to the tasks of a worker: the range
`[begin, end)` of swip positions computed at lines 233-237 by the worker with
the given thread index. -/
structure MorselClaim where
  thread_index : Nat
  begin_swip : Nat
  end_swip : Nat
deriving DecidableEq, Repr

/-- What the workers share while they run: the atomic counter `current_swip`
(64 bits wide), the thread indexes of the workers that have executed `return`,
and the morsels claimed so far in the order of their `fetch_add`. -/
structure DispatchState where
  current_swip : Nat
  returned : List Nat
  claims : List MorselClaim
deriving DecidableEq, Repr

/-- One pass of worker `thread_index` through lines 233-237, taken as a single
atomic step: `begin = current_swip.fetch_add(fetch_increment)`, then `return`
when `begin >= num_swips`, otherwise the morsel `[begin, min(num_swips, begin +
fetch_increment))` is processed. A worker that has returned takes no step. -/
def fetchAddStep (num_swips fetch_increment : Nat) (st : DispatchState) (thread_index : Nat) :
    DispatchState :=
  if thread_index ∈ st.returned then st
  else
    let begin := st.current_swip
    let current_swip := (st.current_swip + fetch_increment) % 2 ^ 64
    if num_swips ≤ begin then
      { current_swip := current_swip
        returned := thread_index :: st.returned
        claims := st.claims }
    else
      let end_swip := min num_swips ((begin + fetch_increment) % 2 ^ 64)
      { current_swip := current_swip
        returned := st.returned
        claims := st.claims ++ [⟨thread_index, begin, end_swip⟩] }

/-- The state reached from `current_swip{0}` when the workers take their steps
in the order given by `schedule` (a list of thread indexes). -/
def runDispatch (num_swips fetch_increment : Nat) (schedule : List Nat) : DispatchState :=
  schedule.foldl (fetchAddStep num_swips fetch_increment) ⟨0, [], []⟩

/-- The number of claimed morsels whose range contains position `p`. -/
def timesClaimed (st : DispatchState) (p : Nat) : Nat :=
  (st.claims.filter (fun c => decide (c.begin_swip ≤ p ∧ p < c.end_swip))).length

/-- The `j`-th morsel of an unbounded counter: `[j * fetch_increment,
min(num_swips, (j + 1) * fetch_increment))`. -/
def morselRange (num_swips fetch_increment j : Nat) : Nat × Nat :=
  (j * fetch_increment, min num_swips (j * fetch_increment + fetch_increment))

/-- The dispatch invariant while the counter has not wrapped: the claims are
the first `k` morsels in order, all starting below `num_swips`; the counter
stands at `(k + e) * fetch_increment` for `e` returned workers; and once a
worker has returned the morsels cover `[0, num_swips)`. -/
def DispatchInv (num_swips fetch_increment num_threads : Nat) (st : DispatchState) : Prop :=
  st.claims.map (fun c => (c.begin_swip, c.end_swip))
      = (List.range st.claims.length).map (morselRange num_swips fetch_increment) ∧
  (∀ j, j < st.claims.length → j * fetch_increment < num_swips) ∧
  st.returned.Nodup ∧ (∀ w ∈ st.returned, w < num_threads) ∧
  st.current_swip = ((st.claims.length + st.returned.length) * fetch_increment) % 2 ^ 64 ∧
  (st.returned ≠ [] → num_swips ≤ st.claims.length * fetch_increment)

/-! ## Worker lifetime in `QueryRunner::StartProcessing` -/

/-- What a worker holds: the scratch frames obtained from `alloc.allocate` and
not given back, and whether the slots `cppcoro::detail::allocator` and
`cppcoro::detail::sync_allocator` hold an `Allocator`. -/
structure WorkerResources where
  scratch_frames : Nat
  allocator : Bool
  sync_allocator : Bool
deriving DecidableEq, Repr

/-- How control leaves the `while (true)` loop of lines 232-264: through the
`return` of line 235, which leaves the worker's lambda; by falling through to
line 266; or not yet, the worker still being in the loop. -/
inductive LoopExit where
  | returned (res : WorkerResources)
  | fellThrough (res : WorkerResources)
  | running
deriving DecidableEq, Repr

/-- The loop of lines 232-264 over the values `begin` that the successive
`fetch_add` calls of this worker return. Processing a morsel neither allocates
nor frees scratch frames and leaves the allocator slots alone. The loop
condition is `true` and the body has no `break`, so the loop is left through
`return` only. -/
def workerLoop (num_swips : Nat) (res : WorkerResources) : List Nat → LoopExit
  | [] => LoopExit.running
  | begin :: rest =>
    if num_swips ≤ begin then LoopExit.returned res
    else workerLoop num_swips res rest

/-- Lines 266-272, the statements after the loop: the scratch frames are
deallocated and, in asynchronous mode, both allocators are deleted and their
slots set to null. -/
def releaseResources (is_synchronous : Bool) (res : WorkerResources) : WorkerResources :=
  { scratch_frames := 0
    allocator := if is_synchronous then res.allocator else false
    sync_allocator := if is_synchronous then res.sync_allocator else false }

/-- The worker's lambda (lines 207-272) seen through its resources: what the
thread holds when it ends, or `none` while it is still in the loop.
`use_allocator` is the build flag `USE_ALLOCATOR`; the mode is synchronous when
`num_ring_entries` is zero. -/
def worker (use_allocator : Bool) (num_ring_entries num_swips : Nat) (begins : List Nat) :
    Option WorkerResources :=
  let is_synchronous : Bool := num_ring_entries == 0
  let entry : WorkerResources :=
    { scratch_frames := if is_synchronous then 1 else num_ring_entries
      allocator := !is_synchronous && use_allocator
      sync_allocator := !is_synchronous && use_allocator }
  match workerLoop num_swips entry begins with
  | LoopExit.returned res => some res
  | LoopExit.fellThrough res => some (releaseResources is_synchronous res)
  | LoopExit.running => none

/-! ## Task fan-out and the cached-fraction sweep -/

/-- Addition of two `uint64_t` values. -/
def add64 (a b : Nat) : Nat := (a + b) % 2 ^ 64

/-- Subtraction of two `uint64_t` values. -/
def sub64 (a b : Nat) : Nat := (a % 2 ^ 64 + 2 ^ 64 - b % 2 ^ 64) % 2 ^ 64

/-- Multiplication of two `uint64_t` values. -/
def mul64 (a b : Nat) : Nat := (a * b) % 2 ^ 64

/-- Lines 248-249: `(size + num_ring_entries - 1) / num_ring_entries`. -/
def num_pages_per_task (size num_ring_entries : Nat) : Nat :=
  sub64 (add64 size num_ring_entries) 1 / num_ring_entries

/-- Lines 238 and 251-255: the swip range `[local_begin, local_end)` given to
task `i` of a worker that claimed `[begin, end)`. -/
def asyncTaskRange (begin end_swip num_ring_entries i : Nat) : Nat × Nat :=
  let size := sub64 end_swip begin
  let local_begin :=
    min (add64 begin (mul64 i (num_pages_per_task size num_ring_entries))) end_swip
  let local_end :=
    min (add64 local_begin (num_pages_per_task size num_ring_entries)) end_swip
  (local_begin, local_end)

/-- `constexpr uint64_t kNumConcurrentTasks = 64ull` in `Cache::Populate`. -/
def kNumConcurrentTasks : Nat := 64

/-- Lines 46-47 of `Cache::Populate`:
`(swip_indexes.size() + kNumConcurrentTasks - 1) / kNumConcurrentTasks`. -/
def Populate_partition_size (size : Nat) : Nat :=
  sub64 (add64 size kNumConcurrentTasks) 1 / kNumConcurrentTasks

/-- Lines 50-51 of `Cache::Populate`: the range `[begin, end)` of positions of
`swip_indexes` given to `AsyncLoadPages` task `i`. -/
def populateTaskRange (size i : Nat) : Nat × Nat :=
  let begin := min (mul64 i (Populate_partition_size size)) size
  let end_index := min (add64 begin (Populate_partition_size size)) size
  (begin, end_index)

/-- The frames appended to `frames_` by one call of `Populate` on `size`
positions: `AsyncLoadPages` appends one frame for each position of its range,
for each of the `kNumConcurrentTasks` tasks. -/
def populateFrames (size : Nat) : Nat :=
  ((List.range kNumConcurrentTasks).map
    (fun i => (populateTaskRange size i).2 - (populateTaskRange size i).1)).sum

/-- Lines 401-402 of `main`: `(swip_indexes.size() + 9) / 10`. -/
def main_partition_size (n : Nat) : Nat := add64 n 9 / 10

/-- Line 413: the offset into `swip_indexes` of the chunk populated in stage
`i > 0`, `std::min((i - 1) * partition_size, swip_indexes.size())`. -/
def populateOffset (n i : Nat) : Nat := min (mul64 (i - 1) (main_partition_size n)) n

/-- Line 414: the length of the chunk populated in stage `i > 0`,
`std::min(partition_size, swip_indexes.size() - offset)`. -/
def populateSize (n i : Nat) : Nat :=
  min (main_partition_size n) (sub64 n (populateOffset n i))

/-- Lines 429 and 447: the `num_cached_pages` column printed in stage `i`,
`std::min(i * partition_size, swip_indexes.size())`. -/
def num_cached_pages (n i : Nat) : Nat := min (mul64 i (main_partition_size n)) n

/-- The positions handed to `Populate` in the stages `1 .. i`, in order: stage
`j` passes `std::span{swip_indexes}.subspan(offset, size)` (lines 413-416). -/
def populatedPositions (swip_indexes : List Nat) (i : Nat) : List Nat :=
  (List.range i).flatMap (fun j =>
    (swip_indexes.drop (populateOffset swip_indexes.length (j + 1))).take
      (populateSize swip_indexes.length (j + 1)))

/-- `GetSwips`: the number of swips made for the data file,
`size_of_data_file / kPageSize` (`kPageSize` is a constant of the missing
`storage` headers). -/
def GetSwips_num_pages (size_of_data_file kPageSize : Nat) : Nat :=
  size_of_data_file / kPageSize

/-- The frames held by the cache after the stages `1 .. i` of the sweep. -/
def framesAfterStage (n i : Nat) : Nat :=
  ((List.range i).map (fun j => populateFrames (populateSize n (j + 1)))).sum

/-- The capacity given to `frames_` by the `Cache` constructor,
`frames_.reserve(swips.size())`, for a file of `n` pages. -/
def reservedFrames (n : Nat) : Nat := n

/-- The spec's words for the run length: `ceil(size / k)`. -/
def ceilDiv (size k : Nat) : Nat := (size + k - 1) / k

/-- The spec's words for run `i` of a fan-out of `size` positions over `k`
tasks with run length `r = ceil(size / k)`:
`[min(i * r, size), min(min(i * r, size) + r, size))`. -/
def specRun (size k i : Nat) : Nat × Nat :=
  (min (i * ceilDiv size k) size, min (min (i * ceilDiv size k) size + ceilDiv size k) size)

/-! ## `FixedAllocator` (`cppcoro/allocator.hpp`), the freelist build

The members compiled without `USE_SCALABLE_ALLOCATOR`. -/

/-- An `unsigned char*` into a slab: the index of the slab in the vector
`allocator` and the byte offset from `allocator[slab].get()`. The slabs are
separate heap arrays, so pointers into different slabs never address the same
byte. -/
structure BlockPtr where
  slab : Nat
  offset : Nat
deriving DecidableEq, Repr

/-- The data members of `class FixedAllocator`: `allocator` holds, for each
slab created so far, the length of its `unsigned char[]`; `free_list` is the
vector of returned and not yet handed out blocks, its back being the last
element of the list. -/
structure FixedAllocator where
  allocator : List Nat
  free_list : List BlockPtr
  allocation_size : Nat
  num_blocks : Nat
deriving DecidableEq, Repr

/-- The constructor `FixedAllocator(uint32_t allocation_size, uint16_t
num_blocks)`: no slab, an empty free list, and the two parameters at the width
of their members. -/
def FixedAllocator.init (allocation_size num_blocks : Nat) : FixedAllocator :=
  { allocator := [], free_list := [], allocation_size := allocation_size % 2 ^ 32,
    num_blocks := num_blocks % 2 ^ 16 }

/-- Lines 25-33, the refill run when the free list is empty: a slab of
`allocation_size * num_blocks` bytes (a 32-bit product) is appended to
`allocator`, and the loop pushes `p = allocator.back().get()`, `p +
allocation_size`, ... onto the free list, once for each `i` below
`num_blocks`. -/
def FixedAllocator.refill (self : FixedAllocator) : FixedAllocator :=
  let size := (self.allocation_size * self.num_blocks) % 2 ^ 32
  let slab := self.allocator.length
  { self with
    allocator := self.allocator ++ [size]
    free_list := self.free_list ++
      (List.range self.num_blocks).map (fun i => ⟨slab, i * self.allocation_size⟩) }

/-- `FixedAllocator::allocate` (lines 23-38): refill when the free list is
empty, then return `free_list.back()` and pop it. Reading the back of a free
list that is still empty is undefined (`none`). -/
def FixedAllocator.allocate (self : FixedAllocator) : Option (BlockPtr × FixedAllocator) :=
  let refilled := if self.free_list.isEmpty then self.refill else self
  match refilled.free_list.getLast? with
  | some result => some (result, { refilled with free_list := refilled.free_list.dropLast })
  | none => none

/-- `FixedAllocator::deallocate` (line 46): `free_list.push_back(p)`. -/
def FixedAllocator.deallocate (self : FixedAllocator) (p : BlockPtr) : FixedAllocator :=
  { self with free_list := self.free_list ++ [p] }

/-- A call made by a user of the allocator. -/
inductive AllocatorCall where
  | allocate
  | deallocate (p : BlockPtr)
deriving DecidableEq, Repr

/-- The allocator together with the blocks that `allocate` has returned and
that have not been passed to `deallocate` since. -/
structure AllocatorTrace where
  fixed : FixedAllocator
  outstanding : List BlockPtr
deriving DecidableEq, Repr

/-- How a sequence of calls ends: in a state; with `allocate` reading the
back of an empty free list; or with the user passing to `deallocate` a block
that is not outstanding. -/
inductive CallResult where
  | ok (st : AllocatorTrace)
  | popFromEmpty
  | notOutstanding
deriving DecidableEq, Repr

/-- One call: `allocate` moves the returned block to the outstanding blocks,
`deallocate p` is accepted for an outstanding `p` only and takes it out of
them. -/
def callAllocator (st : AllocatorTrace) : AllocatorCall → CallResult
  | AllocatorCall.allocate =>
    match st.fixed.allocate with
    | some (result, fixed) => CallResult.ok ⟨fixed, result :: st.outstanding⟩
    | none => CallResult.popFromEmpty
  | AllocatorCall.deallocate p =>
    if p ∈ st.outstanding then
      CallResult.ok ⟨st.fixed.deallocate p, st.outstanding.erase p⟩
    else CallResult.notOutstanding

/-- A sequence of calls, stopping at the first one that does not end in a
state. -/
def runAllocator : AllocatorTrace → List AllocatorCall → CallResult
  | st, [] => CallResult.ok st
  | st, call :: rest =>
    match callAllocator st call with
    | CallResult.ok st' => runAllocator st' rest
    | CallResult.popFromEmpty => CallResult.popFromEmpty
    | CallResult.notOutstanding => CallResult.notOutstanding

/-- The blocks of slab `slab`: the offsets `j * allocation_size` for `j` below
`num_blocks`. -/
def slabBlocks (allocation_size num_blocks slab : Nat) : List BlockPtr :=
  (List.range num_blocks).map (fun j => ⟨slab, j * allocation_size⟩)

/-- The blocks of the first `num_slabs` slabs. -/
def allBlocks (allocation_size num_blocks num_slabs : Nat) : List BlockPtr :=
  (List.range num_slabs).flatMap (slabBlocks allocation_size num_blocks)

/-- Two blocks of `allocation_size` bytes share a byte. -/
def blocksOverlap (allocation_size : Nat) (p q : BlockPtr) : Prop :=
  p.slab = q.slab ∧ p.offset < q.offset + allocation_size ∧
    q.offset < p.offset + allocation_size

/-- The allocator invariant: the free list followed by the outstanding blocks
is a rearrangement of the blocks of every slab created so far, every slab has
`allocation_size * num_blocks` bytes, and the two parameters are unchanged. -/
def AllocatorInv (allocation_size num_blocks : Nat) (st : AllocatorTrace) : Prop :=
  (st.fixed.free_list ++ st.outstanding).Perm
      (allBlocks allocation_size num_blocks st.fixed.allocator.length) ∧
  (∀ size ∈ st.fixed.allocator, size = allocation_size * num_blocks) ∧
  st.fixed.allocation_size = allocation_size ∧ st.fixed.num_blocks = num_blocks


/-! ## Facts about `ProcessTuples` -/

theorem hashTableIndex_eq (rf ls : Char) : hashTableIndex rf ls = rf.val * 256 + ls.val := by
  have h1 := rf.isLt
  have h2 := ls.isLt
  unfold hashTableIndex
  rw [Nat.shiftLeft_eq]
  omega

theorem hashTableIndex_eq_lor (rf ls : Char) :
    hashTableIndex rf ls = (rf.val <<< 8) ||| ls.val := by
  rw [hashTableIndex_eq, Nat.shiftLeft_eq, Nat.mul_comm]
  exact Nat.mul_add_lt_is_or (i := 8) ls.isLt rf.val

theorem hashTableIndex_lt (rf ls : Char) : hashTableIndex rf ls < kHashTableSize := by
  have h1 := rf.isLt
  have h2 := ls.isLt
  rw [hashTableIndex_eq]
  simp only [kHashTableSize, Nat.shiftLeft_eq]
  omega

theorem hashTableIndex_inj {rf ls rf' ls' : Char}
    (h : hashTableIndex rf ls = hashTableIndex rf' ls') : rf = rf' ∧ ls = ls' := by
  have h1 := ls.isLt
  have h2 := ls'.isLt
  rw [hashTableIndex_eq, hashTableIndex_eq] at h
  constructor <;> apply Fin.ext <;> omega

theorem foldEntry_cons (castM2 : Numeric → Numeric) (e : HashTableEntry) (t : Tuple)
    (q : List Tuple) :
    foldEntry castM2 e (t :: q) = foldEntry castM2 (accumulate castM2 e t) q := rfl

theorem foldEntry_returnflag (castM2 : Numeric → Numeric) (e : HashTableEntry) (q : List Tuple) :
    (foldEntry castM2 e q).l_returnflag = e.l_returnflag := by
  induction q generalizing e with
  | nil => rfl
  | cons t q ih => rw [foldEntry_cons, ih]; rfl

theorem foldEntry_linestatus (castM2 : Numeric → Numeric) (e : HashTableEntry) (q : List Tuple) :
    (foldEntry castM2 e q).l_linestatus = e.l_linestatus := by
  induction q generalizing e with
  | nil => rfl
  | cons t q ih => rw [foldEntry_cons, ih]; rfl

theorem foldEntry_count (castM2 : Numeric → Numeric) (e : HashTableEntry) (t : Tuple)
    (q : List Tuple) :
    (foldEntry castM2 e (t :: q)).count = (e.count + (t :: q).length) % 2 ^ 32 := by
  induction q generalizing e t with
  | nil => rfl
  | cons t' q ih =>
    rw [foldEntry_cons, ih]
    simp only [accumulate, List.length_cons]
    omega

theorem foldEntry_sum_qty (castM2 : Numeric → Numeric) (e : HashTableEntry) (q : List Tuple) :
    (foldEntry castM2 e q).sum_qty = e.sum_qty + (q.map (fun t => t.l_quantity)).sum := by
  induction q generalizing e with
  | nil => simp [foldEntry]
  | cons t q ih =>
    rw [foldEntry_cons, ih]
    simp only [accumulate, List.map_cons, List.sum_cons]
    ring

theorem foldEntry_sum_base_price (castM2 : Numeric → Numeric) (e : HashTableEntry)
    (q : List Tuple) :
    (foldEntry castM2 e q).sum_base_price
      = e.sum_base_price + (q.map (fun t => t.l_extendedprice)).sum := by
  induction q generalizing e with
  | nil => simp [foldEntry]
  | cons t q ih =>
    rw [foldEntry_cons, ih]
    simp only [accumulate, List.map_cons, List.sum_cons]
    ring

theorem foldEntry_sum_disc (castM2 : Numeric → Numeric) (e : HashTableEntry) (q : List Tuple) :
    (foldEntry castM2 e q).sum_disc = e.sum_disc + (q.map (fun t => t.l_discount)).sum := by
  induction q generalizing e with
  | nil => simp [foldEntry]
  | cons t q ih =>
    rw [foldEntry_cons, ih]
    simp only [accumulate, List.map_cons, List.sum_cons]
    ring

theorem foldEntry_sum_disc_price (castM2 : Numeric → Numeric) (e : HashTableEntry)
    (q : List Tuple) :
    (foldEntry castM2 e q).sum_disc_price
      = e.sum_disc_price
        + (q.map (fun t => t.l_extendedprice * (100 - t.l_discount))).sum := by
  induction q generalizing e with
  | nil => simp [foldEntry]
  | cons t q ih =>
    rw [foldEntry_cons, ih]
    simp only [accumulate, one, List.map_cons, List.sum_cons]
    ring

theorem foldEntry_sum_charge (castM2 : Numeric → Numeric) (e : HashTableEntry)
    (q : List Tuple) :
    (foldEntry castM2 e q).sum_charge
      = e.sum_charge
        + (q.map (fun t =>
            castM2 (t.l_extendedprice * (100 - t.l_discount)) * (100 + t.l_tax))).sum := by
  induction q generalizing e with
  | nil => simp [foldEntry]
  | cons t q ih =>
    rw [foldEntry_cons, ih]
    simp only [accumulate, one, List.map_cons, List.sum_cons]
    ring

theorem processTuple_slot (castM2 : Numeric → Numeric) (high_date : Date)
    (st : HashTable × ValidHashTableIndexes) (t : Tuple) (idx : Nat) :
    (processTuple castM2 high_date st t).1 idx
      = if qualifies high_date idx t then
          some (accumulate castM2
            ((st.1 idx).getD (freshEntry t.l_returnflag t.l_linestatus)) t)
        else st.1 idx := by
  unfold processTuple qualifies
  by_cases hd : t.l_shipdate ≤ high_date
  · by_cases hi : hashTableIndex t.l_returnflag t.l_linestatus = idx
    · subst hi
      cases hs : st.1 (hashTableIndex t.l_returnflag t.l_linestatus) <;> simp [hd, hs]
    · have hi' : idx ≠ hashTableIndex t.l_returnflag t.l_linestatus := fun h => hi h.symm
      cases hs : st.1 (hashTableIndex t.l_returnflag t.l_linestatus) <;>
        simp [hd, hs, hi, Function.update_noteq hi']
  · simp [hd]

theorem foldl_processTuple_slot (castM2 : Numeric → Numeric) (high_date : Date)
    (ts : List Tuple) (st : HashTable × ValidHashTableIndexes) (idx : Nat) :
    (ts.foldl (processTuple castM2 high_date) st).1 idx
      = slotAfter castM2 (st.1 idx) (ts.filter (qualifies high_date idx)) := by
  induction ts generalizing st with
  | nil => rfl
  | cons t ts ih =>
    rw [List.foldl_cons, ih, processTuple_slot]
    by_cases hq : qualifies high_date idx t = true
    · rw [List.filter_cons_of_pos hq, if_pos hq]
      cases ts.filter (qualifies high_date idx) <;> rfl
    · rw [List.filter_cons_of_neg hq, if_neg hq]

theorem ProcessTuples_eq_foldl (castM2 : Numeric → Numeric) (page : LineitemPageQ1)
    (hash_table : HashTable) (valid : ValidHashTableIndexes) (high_date : Date) :
    ProcessTuples castM2 page hash_table valid high_date
      = (((List.range page.num_tuples).map page.tuple).foldl
          (processTuple castM2 high_date) (hash_table, valid)) := by
  unfold ProcessTuples
  rw [List.foldl_map]

/-- The tuples of a page that `ProcessTuples` aggregates into the slot of the
group `(rf, ls)` are those at the positions selected by the filter on the
columns. -/
theorem group_filter_eq (page : LineitemPageQ1) (high_date : Date) (rf ls : Char) :
    ((List.range page.num_tuples).map page.tuple).filter
        (qualifies high_date (hashTableIndex rf ls))
      = ((List.range page.num_tuples).filter (fun i =>
          decide (page.l_shipdate i ≤ high_date ∧ page.l_returnflag i = rf
            ∧ page.l_linestatus i = ls))).map page.tuple := by
  rw [List.filter_map]
  congr 1
  apply List.filter_congr
  intro i _
  simp only [Function.comp, qualifies, LineitemPageQ1.tuple]
  by_cases h1 : page.l_shipdate i ≤ high_date
  · by_cases h2 : page.l_returnflag i = rf ∧ page.l_linestatus i = ls
    · simp [h1, h2.1, h2.2]
    · have h3 : hashTableIndex (page.l_returnflag i) (page.l_linestatus i)
          ≠ hashTableIndex rf ls := fun h => h2 (hashTableIndex_inj h)
      have h2' : ¬ (page.l_shipdate i ≤ high_date ∧ page.l_returnflag i = rf
          ∧ page.l_linestatus i = ls) := fun h => h2 h.2
      rw [decide_eq_false h3, decide_eq_false h2', Bool.and_false]
  · simp [h1]

theorem ProcessTuples_slot (castM2 : Numeric → Numeric) (page : LineitemPageQ1)
    (hash_table : HashTable) (valid : ValidHashTableIndexes) (high_date : Date) (idx : Nat) :
    (ProcessTuples castM2 page hash_table valid high_date).1 idx
      = slotAfter castM2 (hash_table idx)
          (((List.range page.num_tuples).map page.tuple).filter (qualifies high_date idx)) := by
  rw [ProcessTuples_eq_foldl, foldl_processTuple_slot]

/-! ## The sparsity witness and the stamps under `ProcessTuples` -/

theorem sparse_empty : Sparse (emptyHashTable, []) :=
  ⟨List.nodup_nil, fun idx => by simp [emptyHashTable]⟩

theorem processTuple_of_some (castM2 : Numeric → Numeric) (high_date : Date)
    (st : HashTable × ValidHashTableIndexes) (t : Tuple) (entry : HashTableEntry)
    (hd : t.l_shipdate ≤ high_date)
    (hs : st.1 (hashTableIndex t.l_returnflag t.l_linestatus) = some entry) :
    processTuple castM2 high_date st t
      = (Function.update st.1 (hashTableIndex t.l_returnflag t.l_linestatus)
          (some (accumulate castM2 entry t)), st.2) := by
  simp [processTuple, hd, hs]

theorem processTuple_of_none (castM2 : Numeric → Numeric) (high_date : Date)
    (st : HashTable × ValidHashTableIndexes) (t : Tuple)
    (hd : t.l_shipdate ≤ high_date)
    (hs : st.1 (hashTableIndex t.l_returnflag t.l_linestatus) = none) :
    processTuple castM2 high_date st t
      = (Function.update st.1 (hashTableIndex t.l_returnflag t.l_linestatus)
          (some (accumulate castM2 (freshEntry t.l_returnflag t.l_linestatus) t)),
         st.2 ++ [hashTableIndex t.l_returnflag t.l_linestatus]) := by
  simp [processTuple, hd, hs]

theorem processTuple_of_filtered (castM2 : Numeric → Numeric) (high_date : Date)
    (st : HashTable × ValidHashTableIndexes) (t : Tuple)
    (hd : ¬ t.l_shipdate ≤ high_date) :
    processTuple castM2 high_date st t = st := by
  simp [processTuple, hd]

theorem processTuple_sparse (castM2 : Numeric → Numeric) (high_date : Date)
    (st : HashTable × ValidHashTableIndexes) (t : Tuple) (h : Sparse st) :
    Sparse (processTuple castM2 high_date st t) := by
  obtain ⟨hnd, hmem⟩ := h
  by_cases hd : t.l_shipdate ≤ high_date
  · cases hs : st.1 (hashTableIndex t.l_returnflag t.l_linestatus) with
    | some entry =>
      rw [processTuple_of_some castM2 high_date st t entry hd hs]
      refine ⟨hnd, fun idx => ?_⟩
      show idx ∈ st.2 ↔ Function.update st.1 _ _ idx ≠ none
      by_cases hi : idx = hashTableIndex t.l_returnflag t.l_linestatus
      · subst hi
        simp [hmem, hs]
      · rw [Function.update_noteq hi]
        exact hmem idx
    | none =>
      rw [processTuple_of_none castM2 high_date st t hd hs]
      have hnot : hashTableIndex t.l_returnflag t.l_linestatus ∉ st.2 := by
        rw [hmem]; simp [hs]
      refine ⟨?_, fun idx => ?_⟩
      · show (st.2 ++ [_]).Nodup
        rw [List.nodup_append]
        refine ⟨hnd, List.nodup_singleton _, ?_⟩
        intro a ha hb
        rw [List.mem_singleton] at hb
        exact hnot (hb ▸ ha)
      · show idx ∈ st.2 ++ [_] ↔ Function.update st.1 _ _ idx ≠ none
        by_cases hi : idx = hashTableIndex t.l_returnflag t.l_linestatus
        · subst hi
          simp
        · rw [Function.update_noteq hi, List.mem_append, List.mem_singleton]
          simp [hi, hmem]
  · rw [processTuple_of_filtered castM2 high_date st t hd]
    exact ⟨hnd, hmem⟩

theorem foldl_processTuple_sparse (castM2 : Numeric → Numeric) (high_date : Date)
    (ts : List Tuple) (st : HashTable × ValidHashTableIndexes) (h : Sparse st) :
    Sparse (ts.foldl (processTuple castM2 high_date) st) := by
  induction ts generalizing st with
  | nil => exact h
  | cons t ts ih => exact ih _ (processTuple_sparse castM2 high_date st t h)

theorem ProcessTuples_sparse (castM2 : Numeric → Numeric) (page : LineitemPageQ1)
    (hash_table : HashTable) (valid : ValidHashTableIndexes) (high_date : Date)
    (h : Sparse (hash_table, valid)) :
    Sparse (ProcessTuples castM2 page hash_table valid high_date) := by
  rw [ProcessTuples_eq_foldl]
  exact foldl_processTuple_sparse castM2 high_date _ _ h

theorem stamped_empty : Stamped emptyHashTable := by
  intro idx entry h
  cases h

theorem accumulate_key (castM2 : Numeric → Numeric) (e : HashTableEntry) (t : Tuple) :
    (accumulate castM2 e t).l_returnflag = e.l_returnflag ∧
      (accumulate castM2 e t).l_linestatus = e.l_linestatus := ⟨rfl, rfl⟩

theorem processTuple_stamped (castM2 : Numeric → Numeric) (high_date : Date)
    (st : HashTable × ValidHashTableIndexes) (t : Tuple) (h : Stamped st.1) :
    Stamped (processTuple castM2 high_date st t).1 := by
  intro idx entry he
  rw [processTuple_slot] at he
  by_cases hq : qualifies high_date idx t = true
  · rw [if_pos hq] at he
    have hidx : hashTableIndex t.l_returnflag t.l_linestatus = idx := by
      simp only [qualifies, Bool.and_eq_true, decide_eq_true_eq] at hq
      exact hq.2
    cases hs : st.1 idx with
    | some e0 =>
      rw [hs] at he
      simp only [Option.getD_some, Option.some.injEq] at he
      subst he
      exact h idx e0 hs
    | none =>
      rw [hs] at he
      simp only [Option.getD_none, Option.some.injEq] at he
      subst he
      exact hidx
  · rw [if_neg hq] at he
    exact h idx entry he

theorem foldl_processTuple_stamped (castM2 : Numeric → Numeric) (high_date : Date)
    (ts : List Tuple) (st : HashTable × ValidHashTableIndexes) (h : Stamped st.1) :
    Stamped (ts.foldl (processTuple castM2 high_date) st).1 := by
  induction ts generalizing st with
  | nil => exact h
  | cons t ts ih => exact ih _ (processTuple_stamped castM2 high_date st t h)

theorem ProcessTuples_stamped (castM2 : Numeric → Numeric) (page : LineitemPageQ1)
    (hash_table : HashTable) (valid : ValidHashTableIndexes) (high_date : Date)
    (h : Stamped hash_table) :
    Stamped (ProcessTuples castM2 page hash_table valid high_date).1 := by
  rw [ProcessTuples_eq_foldl]
  exact foldl_processTuple_stamped castM2 high_date _ _ h

/-! ## A worker's run -/

theorem runWorker_append (castM2 : Numeric → Numeric) (high_date : Date)
    (pages : List LineitemPageQ1) (page : LineitemPageQ1) :
    runWorker castM2 high_date (pages ++ [page])
      = ProcessTuples castM2 page (runWorker castM2 high_date pages).1
          (runWorker castM2 high_date pages).2 high_date := by
  simp [runWorker, List.foldl_append]

theorem runWorker_eq_foldl (castM2 : Numeric → Numeric) (high_date : Date)
    (pages : List LineitemPageQ1) :
    runWorker castM2 high_date pages
      = (tuplesOf pages).foldl (processTuple castM2 high_date) (emptyHashTable, []) := by
  induction pages using List.reverseRecOn with
  | nil => rfl
  | append_singleton pages page ih =>
    rw [runWorker_append, ProcessTuples_eq_foldl, ih]
    simp [tuplesOf, List.foldl_append]

theorem runWorker_sparse (castM2 : Numeric → Numeric) (high_date : Date)
    (pages : List LineitemPageQ1) : Sparse (runWorker castM2 high_date pages) := by
  rw [runWorker_eq_foldl]
  exact foldl_processTuple_sparse castM2 high_date _ _ sparse_empty

theorem runWorker_stamped (castM2 : Numeric → Numeric) (high_date : Date)
    (pages : List LineitemPageQ1) : Stamped (runWorker castM2 high_date pages).1 := by
  rw [runWorker_eq_foldl]
  exact foldl_processTuple_stamped castM2 high_date _ _ stamped_empty

theorem runWorker_slot (castM2 : Numeric → Numeric) (high_date : Date)
    (pages : List LineitemPageQ1) (idx : Nat) :
    (runWorker castM2 high_date pages).1 idx
      = slotAfter castM2 none ((tuplesOf pages).filter (qualifies high_date idx)) := by
  rw [runWorker_eq_foldl, foldl_processTuple_slot]
  rfl

/-! ## The merge loop -/

theorem mergeSlot_none_left (o : Option HashTableEntry) : mergeSlot none o = o := rfl

theorem mergeSlot_none_right (o : Option HashTableEntry) : mergeSlot o none = o := by
  cases o <;> rfl

theorem mergeSlot_ne_none (a b : Option HashTableEntry) :
    mergeSlot a b ≠ none ↔ a ≠ none ∨ b ≠ none := by
  cases a <;> cases b <;> simp [mergeSlot]

theorem sparse_update_some (t : HashTable) (v : ValidHashTableIndexes) (i : Nat)
    (e : HashTableEntry) (h : Sparse (t, v)) (hi : t i ≠ none) :
    Sparse (Function.update t i (some e), v) := by
  refine ⟨h.1, fun idx => ?_⟩
  have hm := h.2 idx
  simp only at hm ⊢
  by_cases hidx : idx = i
  · subst hidx; simp [hm, hi]
  · rw [Function.update_noteq hidx]; exact hm

theorem sparse_push (t : HashTable) (v : ValidHashTableIndexes) (i : Nat)
    (o : Option HashTableEntry) (h : Sparse (t, v)) (hi : t i = none) (ho : o ≠ none) :
    Sparse (Function.update t i o, v ++ [i]) := by
  have hnot : i ∉ v := by
    have := h.2 i
    simp only at this
    rw [this]; simp [hi]
  refine ⟨?_, fun idx => ?_⟩
  · simp only
    rw [List.nodup_append]
    refine ⟨h.1, List.nodup_singleton _, ?_⟩
    intro a ha hb
    rw [List.mem_singleton] at hb
    exact hnot (hb ▸ ha)
  · have hm := h.2 idx
    simp only at hm ⊢
    by_cases hidx : idx = i
    · subst hidx; simp [ho]
    · rw [Function.update_noteq hidx, List.mem_append, List.mem_singleton]
      simp [hidx, hm]

theorem mergeIndexes_spec (l : List Nat) (st : MergeState) (hl : l.Nodup)
    (hloc : ∀ idx ∈ l, st.local_hash_table idx ≠ none)
    (hs : Sparse (st.result_hash_table, st.result_valid_hash_table_indexes)) :
    ∃ st', mergeIndexes st l = some st' ∧
      Sparse (st'.result_hash_table, st'.result_valid_hash_table_indexes) ∧
      ∀ idx, st'.result_hash_table idx
        = if idx ∈ l then mergeSlot (st.result_hash_table idx) (st.local_hash_table idx)
          else st.result_hash_table idx := by
  induction l generalizing st with
  | nil => exact ⟨st, rfl, hs, fun idx => by simp⟩
  | cons i l ih =>
    obtain ⟨hil, hl'⟩ := List.nodup_cons.1 hl
    obtain ⟨lo, hlo⟩ := Option.ne_none_iff_exists'.1 (hloc i (List.mem_cons_self _ _))
    cases hr : st.result_hash_table i with
    | some r =>
      have hstep : mergeIndex st i = some
          ⟨Function.update st.result_hash_table i (some (mergeEntry r lo)),
            st.result_valid_hash_table_indexes, st.local_hash_table⟩ := by
        simp [mergeIndex, hr, hlo]
      obtain ⟨st', h1, h2, h3⟩ := ih
        ⟨Function.update st.result_hash_table i (some (mergeEntry r lo)),
          st.result_valid_hash_table_indexes, st.local_hash_table⟩ hl'
        (fun idx hidx => hloc idx (List.mem_cons_of_mem _ hidx))
        (sparse_update_some _ _ i _ hs (by simp [hr]))
      refine ⟨st', by simp [mergeIndexes, hstep, h1], h2, fun idx => ?_⟩
      rw [h3]
      by_cases hi : idx = i
      · subst hi
        simp [hil, hr, hlo, mergeSlot]
      · simp [hi, Function.update_noteq hi]
    | none =>
      have hstep : mergeIndex st i = some
          ⟨Function.update st.result_hash_table i (st.local_hash_table i),
            st.result_valid_hash_table_indexes ++ [i],
            Function.update st.local_hash_table i none⟩ := by
        simp [mergeIndex, hr]
      obtain ⟨st', h1, h2, h3⟩ := ih
        ⟨Function.update st.result_hash_table i (st.local_hash_table i),
          st.result_valid_hash_table_indexes ++ [i],
          Function.update st.local_hash_table i none⟩ hl'
        (fun idx hidx => by
          have hne : idx ≠ i := fun h => hil (h ▸ hidx)
          simp only
          rw [Function.update_noteq hne]
          exact hloc idx (List.mem_cons_of_mem _ hidx))
        (sparse_push _ _ i _ hs hr (by simp [hlo]))
      refine ⟨st', by simp [mergeIndexes, hstep, h1], h2, fun idx => ?_⟩
      rw [h3]
      by_cases hi : idx = i
      · subst hi
        simp [hil, hr, mergeSlot]
      · simp [hi, Function.update_noteq hi]

theorem mergeWorker_spec (result worker : Worker) (hr : Sparse result) (hw : Sparse worker) :
    ∃ result', mergeWorker result worker = some result' ∧ Sparse result' ∧
      ∀ idx, result'.1 idx = mergeSlot (result.1 idx) (worker.1 idx) := by
  obtain ⟨st', h1, h2, h3⟩ := mergeIndexes_spec worker.2 ⟨result.1, result.2, worker.1⟩ hw.1
    (fun idx hidx => (hw.2 idx).1 hidx) hr
  refine ⟨(st'.result_hash_table, st'.result_valid_hash_table_indexes), ?_, h2, fun idx => ?_⟩
  · simp [mergeWorker, h1]
  · show st'.result_hash_table idx = _
    rw [h3]
    by_cases hi : idx ∈ worker.2
    · simp [hi]
    · have : worker.1 idx = none := by
        by_contra hne
        exact hi ((hw.2 idx).2 hne)
      simp [hi, this, mergeSlot_none_right]

theorem mergeWorkers_spec (rest : List Worker) (result : Worker) (hr : Sparse result)
    (hw : ∀ w ∈ rest, Sparse w) :
    ∃ result', mergeWorkers result rest = some result' ∧ Sparse result' ∧
      ∀ idx, result'.1 idx
        = (rest.map (fun w => w.1 idx)).foldl mergeSlot (result.1 idx) := by
  induction rest generalizing result with
  | nil => exact ⟨result, rfl, hr, fun idx => rfl⟩
  | cons w rest ih =>
    obtain ⟨r1, h1, h2, h3⟩ := mergeWorker_spec result w hr (hw w (List.mem_cons_self _ _))
    obtain ⟨r2, h4, h5, h6⟩ := ih r1 h2 (fun w' hw' => hw w' (List.mem_cons_of_mem _ hw'))
    refine ⟨r2, by simp [mergeWorkers, h1, h4], h5, fun idx => ?_⟩
    rw [h6, h3]
    rfl

theorem mergeLoop_spec (workers : List Worker) (hne : workers ≠ [])
    (hw : ∀ w ∈ workers, Sparse w) :
    ∃ result, mergeLoop workers = some result ∧ Sparse result ∧
      result.1 = mergedTable workers := by
  cases workers with
  | nil => exact absurd rfl hne
  | cons w0 rest =>
    obtain ⟨r, h1, h2, h3⟩ := mergeWorkers_spec rest w0 (hw w0 (List.mem_cons_self _ _))
      (fun w' hw' => hw w' (List.mem_cons_of_mem _ hw'))
    refine ⟨r, h1, h2, ?_⟩
    funext idx
    rw [h3]
    rfl

/-! ## Collecting and sorting the result -/

theorem entryLess_iff (a b : HashTableEntry) :
    entryLess a b ↔ hashTableIndex a.l_returnflag a.l_linestatus
      < hashTableIndex b.l_returnflag b.l_linestatus := by
  have h1 := a.l_linestatus.isLt
  have h2 := b.l_linestatus.isLt
  rw [hashTableIndex_eq, hashTableIndex_eq]
  unfold entryLess
  rw [Fin.lt_def, Fin.lt_def, Fin.ext_iff]
  omega

instance : IsAntisymm HashTableEntry entryLess :=
  ⟨fun a b h1 h2 => by
    rw [entryLess_iff] at h1 h2
    omega⟩

instance : IsTotal HashTableEntry (fun lhs rhs => ¬ entryLess rhs lhs) :=
  ⟨fun a b => by
    simp only [entryLess_iff]
    omega⟩

instance : IsTrans HashTableEntry (fun lhs rhs => ¬ entryLess rhs lhs) :=
  ⟨fun a b c h1 h2 => by
    simp only [entryLess_iff] at h1 h2 ⊢
    omega⟩

theorem stamped_lt_size (t : HashTable) (h : Stamped t) (idx : Nat) (hne : t idx ≠ none) :
    idx < kHashTableSize := by
  obtain ⟨e, he⟩ := Option.ne_none_iff_exists'.1 hne
  rw [← h idx e he]
  exact hashTableIndex_lt _ _

theorem entriesInSlotOrder_pairwise (t : HashTable) (h : Stamped t) :
    (entriesInSlotOrder t).Pairwise entryLess := by
  unfold entriesInSlotOrder
  refine List.Pairwise.filterMap t ?_ (List.pairwise_lt_range kHashTableSize)
  intro a a' haa b hb b' hb'
  rw [entryLess_iff, h a b hb, h a' b' hb']
  exact haa

theorem collectEntries_eq (t : HashTable) (v : List Nat) (h : ∀ idx ∈ v, t idx ≠ none) :
    collectEntries t v = some (v.filterMap t) := by
  induction v with
  | nil => rfl
  | cons i v ih =>
    obtain ⟨e, he⟩ := Option.ne_none_iff_exists'.1 (h i (List.mem_cons_self _ _))
    have := ih (fun idx hidx => h idx (List.mem_cons_of_mem _ hidx))
    simp [collectEntries, he, this, List.filterMap_cons]

theorem filterMap_perm_entriesInSlotOrder (w : Worker) (hs : Sparse w) (hst : Stamped w.1) :
    (w.2.filterMap w.1).Perm (entriesInSlotOrder w.1) := by
  have hperm : w.2.Perm ((List.range kHashTableSize).filter (fun i => (w.1 i).isSome)) := by
    rw [List.perm_ext_iff_of_nodup hs.1 ((List.nodup_range _).filter _)]
    intro idx
    rw [hs.2 idx, List.mem_filter, List.mem_range]
    constructor
    · intro hne
      exact ⟨stamped_lt_size w.1 hst idx hne, Option.isSome_iff_ne_none.2 hne⟩
    · intro hh
      exact Option.isSome_iff_ne_none.1 hh.2
  refine (hperm.filterMap w.1).trans ?_
  unfold entriesInSlotOrder
  rw [List.filterMap_filter]
  apply List.Perm.of_eq
  congr 1
  funext i
  cases w.1 i <;> rfl

theorem stdSort_eq_of_perm (l c : List HashTableEntry) (hp : l.Perm c)
    (hc : c.Pairwise entryLess) : stdSort l = c := by
  have hperm : (stdSort l).Perm c := (List.perm_insertionSort _ l).trans hp
  have hsorted : (stdSort l).Sorted (fun lhs rhs => ¬ entryLess rhs lhs) :=
    List.sorted_insertionSort _ l
  have hne : (stdSort l).Pairwise (fun a b => hashTableIndex a.l_returnflag a.l_linestatus
      ≠ hashTableIndex b.l_returnflag b.l_linestatus) := by
    refine (List.Perm.pairwise_iff (fun {a b} hab => Ne.symm hab) hperm).2 ?_
    exact hc.imp (fun {a b} hab => by rw [entryLess_iff] at hab; omega)
  have hlt : (stdSort l).Pairwise entryLess := by
    refine (List.Pairwise.and hsorted hne).imp ?_
    intro a b hab
    have h1 := hab.1
    rw [entryLess_iff] at h1 ⊢
    have h2 := hab.2
    omega
  exact List.eq_of_perm_of_sorted hperm hlt hc

/-- Any permutation of the collected entries that is ordered by the comparator
is the list of entries in slot order: the result does not depend on which
sorting algorithm stands behind `std::sort`. -/
theorem sorted_perm_unique (l c : List HashTableEntry) (hp : l.Perm c)
    (hl : l.Pairwise (fun lhs rhs => ¬ entryLess rhs lhs)) (hc : c.Pairwise entryLess) :
    l = c := by
  have hne : l.Pairwise (fun a b => hashTableIndex a.l_returnflag a.l_linestatus
      ≠ hashTableIndex b.l_returnflag b.l_linestatus) := by
    refine (List.Perm.pairwise_iff (fun {a b} hab => Ne.symm hab) hp).2 ?_
    exact hc.imp (fun {a b} hab => by rw [entryLess_iff] at hab; omega)
  have hlt : l.Pairwise entryLess := by
    refine (List.Pairwise.and hl hne).imp ?_
    intro a b hab
    have h1 := hab.1
    rw [entryLess_iff] at h1 ⊢
    have h2 := hab.2
    omega
  exact List.eq_of_perm_of_sorted hp hlt hc

theorem mergeSlot_stamped (idx : Nat) (a b : Option HashTableEntry)
    (ha : ∀ e, a = some e → hashTableIndex e.l_returnflag e.l_linestatus = idx)
    (hb : ∀ e, b = some e → hashTableIndex e.l_returnflag e.l_linestatus = idx) :
    ∀ e, mergeSlot a b = some e → hashTableIndex e.l_returnflag e.l_linestatus = idx := by
  intro e he
  cases a with
  | none => exact hb e he
  | some r =>
    cases b with
    | none => exact ha e he
    | some l =>
      simp only [mergeSlot, Option.some.injEq] at he
      subst he
      exact ha r rfl

theorem foldl_mergeSlot_stamped (idx : Nat) (slots : List (Option HashTableEntry))
    (a : Option HashTableEntry)
    (ha : ∀ e, a = some e → hashTableIndex e.l_returnflag e.l_linestatus = idx)
    (hs : ∀ o ∈ slots, ∀ e, o = some e → hashTableIndex e.l_returnflag e.l_linestatus = idx) :
    ∀ e, slots.foldl mergeSlot a = some e →
      hashTableIndex e.l_returnflag e.l_linestatus = idx := by
  induction slots generalizing a with
  | nil => exact ha
  | cons o slots ih =>
    exact ih (mergeSlot a o)
      (mergeSlot_stamped idx a o ha (hs o (List.mem_cons_self _ _)))
      (fun o' ho' => hs o' (List.mem_cons_of_mem _ ho'))

theorem mergedTable_stamped (workers : List Worker) (h : ∀ w ∈ workers, Stamped w.1) :
    Stamped (mergedTable workers) := by
  intro idx e he
  refine foldl_mergeSlot_stamped idx _ none (fun e h => by cases h) ?_ e he
  intro o ho e' he'
  obtain ⟨w, hw, rfl⟩ := List.mem_map.1 ho
  exact h w hw idx e' he'

/-- With every worker's table sparse and stamped, `DoPostProcessing` returns the
entries of the merged table in slot order. -/
theorem DoPostProcessing_eq (workers : List Worker) (hne : workers ≠ [])
    (hs : ∀ w ∈ workers, Sparse w) (hst : ∀ w ∈ workers, Stamped w.1) :
    DoPostProcessing workers = some (entriesInSlotOrder (mergedTable workers)) := by
  obtain ⟨r, h1, h2, h3⟩ := mergeLoop_spec workers hne hs
  have hstamped : Stamped r.1 := h3 ▸ mergedTable_stamped workers hst
  have hcol := collectEntries_eq r.1 r.2 (fun idx hidx => (h2.2 idx).1 hidx)
  unfold DoPostProcessing
  rw [h1]
  simp only [hcol]
  rw [stdSort_eq_of_perm _ _ (filterMap_perm_entriesInSlotOrder r h2 hstamped)
    (entriesInSlotOrder_pairwise r.1 hstamped), h3]

/-! ## Order independence of the merged table -/

theorem mergeEntry_right_comm (z x y : HashTableEntry) :
    mergeEntry (mergeEntry z x) y = mergeEntry (mergeEntry z y) x := by
  ext
  · simp only [mergeEntry]; ring
  · simp only [mergeEntry]; ring
  · simp only [mergeEntry]; ring
  · simp only [mergeEntry]; ring
  · simp only [mergeEntry]; ring
  · simp only [mergeEntry]; omega
  · rfl
  · rfl

theorem mergeEntry_comm (x y : HashTableEntry)
    (h : hashTableIndex x.l_returnflag x.l_linestatus
      = hashTableIndex y.l_returnflag y.l_linestatus) :
    mergeEntry x y = mergeEntry y x := by
  obtain ⟨h1, h2⟩ := hashTableIndex_inj h
  ext
  · simp only [mergeEntry]; ring
  · simp only [mergeEntry]; ring
  · simp only [mergeEntry]; ring
  · simp only [mergeEntry]; ring
  · simp only [mergeEntry]; ring
  · simp only [mergeEntry]; omega
  · simp only [mergeEntry]; rw [h1]
  · simp only [mergeEntry]; rw [h2]

theorem mergeSlot_right_comm (idx : Nat) (x y : Option HashTableEntry)
    (hx : ∀ e, x = some e → hashTableIndex e.l_returnflag e.l_linestatus = idx)
    (hy : ∀ e, y = some e → hashTableIndex e.l_returnflag e.l_linestatus = idx)
    (z : Option HashTableEntry) :
    mergeSlot (mergeSlot z x) y = mergeSlot (mergeSlot z y) x := by
  cases z with
  | some ez =>
    cases x with
    | none => cases y <;> rfl
    | some ex =>
      cases y with
      | none => rfl
      | some ey =>
        simp only [mergeSlot]
        rw [mergeEntry_right_comm]
  | none =>
    cases x with
    | none => cases y <;> rfl
    | some ex =>
      cases y with
      | none => rfl
      | some ey =>
        simp only [mergeSlot]
        rw [mergeEntry_comm ex ey ((hx ex rfl).trans (hy ey rfl).symm)]

theorem mergedTable_perm (workers workers' : List Worker) (hp : workers.Perm workers')
    (hst : ∀ w ∈ workers, Stamped w.1) : mergedTable workers = mergedTable workers' := by
  funext idx
  unfold mergedTable
  refine List.Perm.foldl_eq' (hp.map _) ?_ none
  intro x hx y hy z
  obtain ⟨wx, hwx, rfl⟩ := List.mem_map.1 hx
  obtain ⟨wy, hwy, rfl⟩ := List.mem_map.1 hy
  exact mergeSlot_right_comm idx _ _ (fun e he => hst wx hwx idx e he)
    (fun e he => hst wy hwy idx e he) z

/-! ## Merging the tables of workers that ran `ProcessTuples` -/

theorem mergeEntry_foldEntry (castM2 : Numeric → Numeric) (r : HashTableEntry) (t : Tuple)
    (q : List Tuple) (rf ls : Char) :
    mergeEntry r (foldEntry castM2 (freshEntry rf ls) (t :: q))
      = foldEntry castM2 r (t :: q) := by
  ext
  · simp only [mergeEntry, foldEntry_sum_qty, freshEntry]; ring
  · simp only [mergeEntry, foldEntry_sum_base_price, freshEntry]; ring
  · simp only [mergeEntry, foldEntry_sum_disc, freshEntry]; ring
  · simp only [mergeEntry, foldEntry_sum_disc_price, freshEntry]; ring
  · simp only [mergeEntry, foldEntry_sum_charge, freshEntry]; ring
  · simp only [mergeEntry, foldEntry_count, freshEntry]; omega
  · simp only [mergeEntry, foldEntry_returnflag]
  · simp only [mergeEntry, foldEntry_linestatus]

theorem mergeSlot_slotAfter (castM2 : Numeric → Numeric) (o : Option HashTableEntry)
    (q : List Tuple) :
    mergeSlot o (slotAfter castM2 none q) = slotAfter castM2 o q := by
  cases q with
  | nil => exact mergeSlot_none_right o
  | cons t q =>
    cases o with
    | none => rfl
    | some r =>
      simp only [slotAfter, mergeSlot, Option.getD_none, Option.getD_some]
      rw [mergeEntry_foldEntry]

theorem slotAfter_append (castM2 : Numeric → Numeric) (q0 q1 : List Tuple) :
    slotAfter castM2 (slotAfter castM2 none q0) q1 = slotAfter castM2 none (q0 ++ q1) := by
  cases q0 with
  | nil => rfl
  | cons t q0 =>
    cases q1 with
    | nil => simp [slotAfter]
    | cons t1 q1 =>
      simp only [slotAfter, List.cons_append, Option.getD_none, Option.getD_some, foldEntry,
        List.foldl_append, List.foldl_cons]

theorem foldl_mergeSlot_slotAfter (castM2 : Numeric → Numeric) (qs : List (List Tuple))
    (q0 : List Tuple) :
    (qs.map (slotAfter castM2 none)).foldl mergeSlot (slotAfter castM2 none q0)
      = slotAfter castM2 none (q0 ++ qs.flatten) := by
  induction qs generalizing q0 with
  | nil => simp
  | cons q qs ih =>
    rw [List.map_cons, List.foldl_cons, mergeSlot_slotAfter, slotAfter_append, ih]
    simp

theorem slotAfter_perm (castM2 : Numeric → Numeric) (idx : Nat) (q q' : List Tuple)
    (hp : q.Perm q')
    (hk : ∀ t ∈ q, hashTableIndex t.l_returnflag t.l_linestatus = idx) :
    slotAfter castM2 none q = slotAfter castM2 none q' := by
  cases q with
  | nil => rw [List.nil_perm.1 hp]
  | cons t q =>
    cases q' with
    | nil => exact absurd (List.perm_nil.1 hp) (List.cons_ne_nil _ _)
    | cons t' q' =>
      have ht' : t' ∈ t :: q := hp.mem_iff.2 (List.mem_cons_self _ _)
      obtain ⟨h1, h2⟩ := hashTableIndex_inj
        ((hk t (List.mem_cons_self _ _)).trans (hk t' ht').symm)
      have hlen := hp.length_eq
      simp only [slotAfter, Option.getD_none, Option.some.injEq]
      ext
      · simp only [foldEntry_sum_qty, freshEntry, (hp.map _).sum_eq]
      · simp only [foldEntry_sum_base_price, freshEntry, (hp.map _).sum_eq]
      · simp only [foldEntry_sum_disc, freshEntry, (hp.map _).sum_eq]
      · simp only [foldEntry_sum_disc_price, freshEntry, (hp.map _).sum_eq]
      · simp only [foldEntry_sum_charge, freshEntry, (hp.map _).sum_eq]
      · simp only [foldEntry_count, freshEntry, hlen]
      · simp only [foldEntry_returnflag, freshEntry, h1]
      · simp only [foldEntry_linestatus, freshEntry, h2]

theorem tuplesOf_flatten (assign : List (List LineitemPageQ1)) :
    tuplesOf assign.flatten = (assign.map tuplesOf).flatten := by
  induction assign with
  | nil => rfl
  | cons ps assign ih =>
    simp only [List.flatten_cons, List.map_cons]
    rw [← ih]
    simp [tuplesOf, List.flatMap_append]

/-- The merged table of workers that processed the page lists `assign` holds,
in every slot, what one worker holds there after processing `pages`, when the
page lists together are a rearrangement of `pages`. -/
theorem mergedTable_runWorker (castM2 : Numeric → Numeric) (high_date : Date)
    (pages : List LineitemPageQ1) (assign : List (List LineitemPageQ1))
    (hp : assign.flatten.Perm pages) :
    mergedTable (assign.map (runWorker castM2 high_date))
      = (runWorker castM2 high_date pages).1 := by
  funext idx
  unfold mergedTable
  have h1 : (assign.map (runWorker castM2 high_date)).map (fun w => w.1 idx)
      = (assign.map (fun ps => (tuplesOf ps).filter (qualifies high_date idx))).map
          (slotAfter castM2 none) := by
    rw [List.map_map, List.map_map]
    apply List.map_congr_left
    intro ps _
    exact runWorker_slot castM2 high_date ps idx
  rw [h1]
  have h2 := foldl_mergeSlot_slotAfter castM2
    (assign.map (fun ps => (tuplesOf ps).filter (qualifies high_date idx))) []
  simp only [slotAfter, List.nil_append] at h2
  rw [show (none : Option HashTableEntry) = slotAfter castM2 none [] from rfl]
  simp only [slotAfter] at h2 ⊢
  rw [h2, runWorker_slot]
  have h3 : (assign.map (fun ps => (tuplesOf ps).filter (qualifies high_date idx))).flatten
      = (tuplesOf assign.flatten).filter (qualifies high_date idx) := by
    rw [tuplesOf_flatten, List.filter_flatten, List.map_map]
    rfl
  rw [h3]
  apply slotAfter_perm castM2 idx
  · exact (List.Perm.flatMap_right _ hp).filter _
  · intro t ht
    have := (List.mem_filter.1 ht).2
    simp only [qualifies, Bool.and_eq_true, decide_eq_true_eq] at this
    exact this.2

theorem foldl_mergeSlot_ne_none (slots : List (Option HashTableEntry))
    (a : Option HashTableEntry) :
    slots.foldl mergeSlot a ≠ none ↔ a ≠ none ∨ ∃ o ∈ slots, o ≠ none := by
  induction slots generalizing a with
  | nil => simp
  | cons o slots ih =>
    rw [List.foldl_cons, ih, mergeSlot_ne_none]
    simp only [List.mem_cons, exists_eq_or_imp]
    tauto

theorem mergedTable_ne_none (workers : List Worker) (idx : Nat) :
    mergedTable workers idx ≠ none ↔ ∃ w ∈ workers, w.1 idx ≠ none := by
  unfold mergedTable
  rw [foldl_mergeSlot_ne_none]
  simp

theorem mem_entriesInSlotOrder (t : HashTable) (h : Stamped t) (e : HashTableEntry) :
    e ∈ entriesInSlotOrder t ↔ t (hashTableIndex e.l_returnflag e.l_linestatus) = some e := by
  unfold entriesInSlotOrder
  rw [List.mem_filterMap]
  constructor
  · rintro ⟨idx, _, he⟩
    rw [h idx e he]
    exact he
  · intro he
    exact ⟨_, List.mem_range.2 (hashTableIndex_lt _ _), he⟩

/-! ## Morsel dispatch -/


theorem returned_length_lt (num_threads : Nat) (returned : List Nat) (w : Nat)
    (hnd : returned.Nodup) (hlt : ∀ x ∈ returned, x < num_threads) (hw : w < num_threads)
    (hnot : w ∉ returned) : returned.length < num_threads := by
  have h1 : (w :: returned).Nodup := List.nodup_cons.2 ⟨hnot, hnd⟩
  have h2 : (w :: returned).toFinset ⊆ Finset.range num_threads := by
    intro x hx
    rw [List.mem_toFinset, List.mem_cons] at hx
    rw [Finset.mem_range]
    rcases hx with rfl | hx
    · exact hw
    · exact hlt x hx
  have h3 := Finset.card_le_card h2
  rw [List.toFinset_card_of_nodup h1, Finset.card_range, List.length_cons] at h3
  omega

theorem fetchAddStep_inv (num_swips fetch_increment num_threads : Nat)
    (hbound : num_swips + num_threads * fetch_increment ≤ 2 ^ 64)
    (st : DispatchState) (w : Nat) (hw : w < num_threads)
    (h : DispatchInv num_swips fetch_increment num_threads st) :
    DispatchInv num_swips fetch_increment num_threads
      (fetchAddStep num_swips fetch_increment st w) := by
  obtain ⟨hcl, hlt, hnd, hret, hcur, hcov⟩ := h
  unfold fetchAddStep
  by_cases hin : w ∈ st.returned
  · rw [if_pos hin]
    exact ⟨hcl, hlt, hnd, hret, hcur, hcov⟩
  · rw [if_neg hin]
    have he : st.returned.length < num_threads :=
      returned_length_lt num_threads st.returned w hnd hret hw hin
    -- the counter has not wrapped when a running worker reads it
    have hmul : (st.returned.length + 1) * fetch_increment ≤ num_threads * fetch_increment :=
      Nat.mul_le_mul_right _ he
    have hexact : (st.claims.length + st.returned.length) * fetch_increment < 2 ^ 64 := by
      rcases Nat.eq_zero_or_pos st.claims.length with hk | hk
      · rw [hk, Nat.zero_add]
        have : st.returned.length * fetch_increment
            ≤ (st.returned.length + 1) * fetch_increment :=
          Nat.mul_le_mul_right _ (Nat.le_succ _)
        rcases Nat.eq_zero_or_pos fetch_increment with h0 | h0
        · rw [h0]; simp
        · have : st.returned.length * fetch_increment
              < (st.returned.length + 1) * fetch_increment := by
            rw [Nat.add_mul]; omega
          omega
      · have h1 := hlt (st.claims.length - 1) (by omega)
        have h2 : (st.claims.length + st.returned.length) * fetch_increment
            = (st.claims.length - 1) * fetch_increment
              + (st.returned.length + 1) * fetch_increment := by
          rw [← Nat.add_mul]; congr 1; omega
        omega
    have hbegin : st.current_swip
        = (st.claims.length + st.returned.length) * fetch_increment := by
      rw [hcur, Nat.mod_eq_of_lt hexact]
    have hnext : (st.current_swip + fetch_increment) % 2 ^ 64
        = ((st.claims.length + st.returned.length + 1) * fetch_increment) % 2 ^ 64 := by
      rw [hbegin, Nat.add_mul _ 1, Nat.one_mul]
    by_cases hge : num_swips ≤ st.current_swip
    · simp only [if_pos hge]
      refine ⟨hcl, hlt, List.nodup_cons.2 ⟨hin, hnd⟩, ?_, ?_, ?_⟩
      · intro x hx
        rcases List.mem_cons.1 hx with rfl | hx
        · exact hw
        · exact hret x hx
      · simp only [List.length_cons]
        rw [hnext]
        congr 2
      · intro _
        show num_swips ≤ st.claims.length * fetch_increment
        by_cases hr : st.returned = []
        · rw [hr, List.length_nil, Nat.add_zero] at hbegin
          omega
        · exact hcov hr
    · simp only [if_neg hge]
      have hr : st.returned = [] := by
        by_contra hr
        have h1 := hcov hr
        have h2 : st.claims.length * fetch_increment
            ≤ (st.claims.length + st.returned.length) * fetch_increment :=
          Nat.mul_le_mul_right _ (Nat.le_add_right _ _)
        omega
      rw [hr, List.length_nil, Nat.add_zero] at hbegin
      have hthreads : fetch_increment ≤ num_threads * fetch_increment :=
        Nat.le_mul_of_pos_left _ (by omega)
      have hend : (st.current_swip + fetch_increment) % 2 ^ 64
          = st.claims.length * fetch_increment + fetch_increment := by
        rw [hbegin, Nat.mod_eq_of_lt (by omega)]
      refine ⟨?_, ?_, hnd, hret, ?_, ?_⟩
      · simp only [List.map_append, List.map_cons, List.map_nil, List.length_append,
          List.length_singleton, List.range_succ]
        rw [hcl, hend, hbegin]
        rfl
      · intro j hj
        simp only [List.length_append, List.length_singleton] at hj
        rcases Nat.lt_succ_iff_lt_or_eq.1 hj with hj | rfl
        · exact hlt j hj
        · omega
      · simp only [List.length_append, List.length_singleton]
        rw [hnext, hr]
        congr 2
      · intro hne
        exact absurd hr hne

theorem runDispatch_inv (num_swips fetch_increment num_threads : Nat)
    (hbound : num_swips + num_threads * fetch_increment ≤ 2 ^ 64)
    (schedule : List Nat) (hs : ∀ w ∈ schedule, w < num_threads) :
    DispatchInv num_swips fetch_increment num_threads
      (runDispatch num_swips fetch_increment schedule) := by
  unfold runDispatch
  have h0 : DispatchInv num_swips fetch_increment num_threads ⟨0, [], []⟩ :=
    ⟨rfl, fun j hj => by simp at hj, List.nodup_nil, fun w hw => by simp at hw,
      by simp, fun h => absurd rfl h⟩
  generalize (⟨0, [], []⟩ : DispatchState) = st at h0
  induction schedule generalizing st with
  | nil => exact h0
  | cons w schedule ih =>
    exact ih (fun x hx => hs x (List.mem_cons_of_mem _ hx)) _
      (fetchAddStep_inv num_swips fetch_increment num_threads hbound st w
        (hs w (List.mem_cons_self _ _)) h0)

theorem countP_range_unique (k a : Nat) (q : Nat → Bool)
    (hq : ∀ j, j < k → (q j = true ↔ j = a)) :
    (List.range k).countP q = if a < k then 1 else 0 := by
  induction k with
  | zero => simp
  | succ k ih =>
    rw [List.range_succ, List.countP_append, ih (fun j hj => hq j (Nat.lt_succ_of_lt hj))]
    have hk := hq k (Nat.lt_succ_self k)
    by_cases hka : k = a
    · subst hka
      have : q k = true := hk.2 rfl
      simp [this]
    · have : q k ≠ true := fun h => hka (hk.1 h)
      have hlt : a < k + 1 ↔ a < k := by omega
      simp [this, hlt]

theorem morselRange_contains (num_swips fetch_increment j p : Nat) (hinc : 0 < fetch_increment)
    (hp : p < num_swips) :
    ((morselRange num_swips fetch_increment j).1 ≤ p
        ∧ p < (morselRange num_swips fetch_increment j).2) ↔ j = p / fetch_increment := by
  simp only [morselRange]
  constructor
  · rintro ⟨h1, h2⟩
    have h3 : p < (j + 1) * fetch_increment := by
      rw [Nat.add_mul, Nat.one_mul]
      exact lt_of_lt_of_le h2 (min_le_right _ _)
    exact (Nat.div_eq_of_lt_le h1 h3).symm
  · rintro rfl
    exact ⟨Nat.div_mul_le_self _ _, lt_min hp (Nat.lt_div_mul_add hinc)⟩

theorem timesClaimed_eq (num_swips fetch_increment num_threads : Nat) (st : DispatchState)
    (h : DispatchInv num_swips fetch_increment num_threads st) (hinc : 0 < fetch_increment)
    (p : Nat) (hp : p < num_swips) :
    timesClaimed st p = if p / fetch_increment < st.claims.length then 1 else 0 := by
  unfold timesClaimed
  rw [← List.countP_eq_length_filter]
  have h1 : st.claims.countP (fun c => decide (c.begin_swip ≤ p ∧ p < c.end_swip))
      = (st.claims.map (fun c => (c.begin_swip, c.end_swip))).countP
          (fun r : Nat × Nat => decide (r.1 ≤ p ∧ p < r.2)) := by
    rw [List.countP_map]; rfl
  rw [h1, h.1, List.countP_map]
  apply countP_range_unique
  intro j _
  simp only [Function.comp, decide_eq_true_eq]
  exact morselRange_contains num_swips fetch_increment j p hinc hp

theorem claims_in_range (num_swips fetch_increment num_threads : Nat) (st : DispatchState)
    (h : DispatchInv num_swips fetch_increment num_threads st) (hinc : 0 < fetch_increment)
    (c : MorselClaim) (hc : c ∈ st.claims) :
    c.begin_swip < c.end_swip ∧ c.begin_swip < num_swips ∧
      c.end_swip = min num_swips (c.begin_swip + fetch_increment) := by
  have hm : (c.begin_swip, c.end_swip) ∈ st.claims.map (fun c => (c.begin_swip, c.end_swip)) :=
    List.mem_map.2 ⟨c, hc, rfl⟩
  rw [h.1] at hm
  obtain ⟨j, hj, hjc⟩ := List.mem_map.1 hm
  have hlt := h.2.1 j (List.mem_range.1 hj)
  simp only [morselRange, Prod.mk.injEq] at hjc
  obtain ⟨hb, he⟩ := hjc
  rw [← hb, ← he]
  refine ⟨lt_min hlt (by omega), hlt, rfl⟩

theorem claims_pairwise (num_swips fetch_increment num_threads : Nat) (st : DispatchState)
    (h : DispatchInv num_swips fetch_increment num_threads st) :
    st.claims.Pairwise (fun a b => a.end_swip ≤ b.begin_swip) := by
  have h1 : (st.claims.map (fun c => (c.begin_swip, c.end_swip))).Pairwise
      (fun a b : Nat × Nat => a.2 ≤ b.1) := by
    rw [h.1, List.pairwise_map]
    refine (List.pairwise_lt_range _).imp ?_
    intro j j' hjj
    simp only [morselRange]
    have : (j + 1) * fetch_increment ≤ j' * fetch_increment := Nat.mul_le_mul_right _ hjj
    rw [Nat.add_mul, Nat.one_mul] at this
    exact le_trans (min_le_right _ _) this
  rw [List.pairwise_map] at h1
  exact h1

/-! ## Runs of a fan-out -/

theorem ceilDiv_mul_le (size k : Nat) : ceilDiv size k * k ≤ size + k - 1 :=
  Nat.div_mul_le_self _ _

theorem le_mul_ceilDiv (size k : Nat) (hk : 0 < k) : size ≤ k * ceilDiv size k := by
  have h := Nat.lt_div_mul_add (a := size + k - 1) hk
  unfold ceilDiv
  rw [Nat.mul_comm]
  omega

theorem ceilDiv_le_of_le_mul (size k r : Nat) (hk : 0 < k) (h : size ≤ k * r) :
    ceilDiv size k ≤ r := by
  unfold ceilDiv
  have : size + k - 1 < k * (r + 1) := by
    rw [Nat.mul_add, Nat.mul_one]; omega
  exact Nat.lt_succ_iff.1 (Nat.div_lt_of_lt_mul this)

theorem ceilDiv_pos (size k : Nat) (hs : 0 < size) (hk : 0 < k) : 0 < ceilDiv size k := by
  have h := le_mul_ceilDiv size k hk
  by_contra h0
  rw [Nat.not_lt, Nat.le_zero] at h0
  rw [h0, Nat.mul_zero] at h
  omega

theorem ceilDiv_le_self (size k : Nat) (hk : 0 < k) : ceilDiv size k ≤ size :=
  ceilDiv_le_of_le_mul size k size hk (Nat.le_mul_of_pos_left _ hk)

theorem specRun_next (size k i : Nat) : (specRun size k i).2 = (specRun size k (i + 1)).1 := by
  simp only [specRun]
  rw [Nat.add_mul, Nat.one_mul]
  omega

theorem specRun_first (size k : Nat) : (specRun size k 0).1 = 0 := by
  simp [specRun]

theorem specRun_last (size k : Nat) (hk : 0 < k) : (specRun size k (k - 1)).2 = size := by
  rw [specRun_next]
  have h := le_mul_ceilDiv size k hk
  simp only [specRun]
  rw [Nat.sub_add_cancel hk]
  omega

theorem specRun_le (size k i : Nat) : (specRun size k i).1 ≤ (specRun size k i).2 := by
  simp only [specRun]
  omega

theorem specRun_mono (size k i j : Nat) (hij : i < j) :
    (specRun size k i).2 ≤ (specRun size k j).1 := by
  rw [specRun_next]
  simp only [specRun]
  have : (i + 1) * ceilDiv size k ≤ j * ceilDiv size k := Nat.mul_le_mul_right _ hij
  omega

theorem specRun_contains (size k i p : Nat) (hk : 0 < k) (hp : p < size) :
    ((specRun size k i).1 ≤ p ∧ p < (specRun size k i).2) ↔ i = p / ceilDiv size k := by
  have hr := ceilDiv_pos size k (by omega) hk
  simp only [specRun]
  constructor
  · rintro ⟨h1, h2⟩
    have h3 : i * ceilDiv size k ≤ p := by omega
    have h4 : p < (i + 1) * ceilDiv size k := by
      rw [Nat.add_mul, Nat.one_mul]; omega
    exact (Nat.div_eq_of_lt_le h3 h4).symm
  · rintro rfl
    have h1 := Nat.div_mul_le_self p (ceilDiv size k)
    have h2 := Nat.lt_div_mul_add (a := p) hr
    omega

theorem specRun_count (size k p : Nat) (hk : 0 < k) (hp : p < size) :
    ((List.range k).filter (fun i =>
      decide ((specRun size k i).1 ≤ p ∧ p < (specRun size k i).2))).length = 1 := by
  rw [← List.countP_eq_length_filter,
    countP_range_unique k (p / ceilDiv size k) _ (fun i _ => by
      simp only [decide_eq_true_eq]
      exact specRun_contains size k i p hk hp)]
  have h := le_mul_ceilDiv size k hk
  have : p / ceilDiv size k < k := Nat.div_lt_of_lt_mul (by rw [Nat.mul_comm]; omega)
  rw [if_pos this]

theorem specRun_length_sum (size k m : Nat) :
    ((List.range m).map (fun i => (specRun size k i).2 - (specRun size k i).1)).sum
      = (specRun size k m).1 := by
  induction m with
  | zero => simp [specRun]
  | succ m ih =>
    rw [List.range_succ, List.map_append, List.sum_append, ih]
    simp only [List.map_cons, List.map_nil, List.sum_cons, List.sum_nil, Nat.add_zero]
    have h1 := specRun_le size k m
    have h2 := specRun_next size k m
    omega

/-! ## The fan-out computed by the code -/

theorem add64_eq (a b : Nat) (h : a + b < 2 ^ 64) : add64 a b = a + b :=
  Nat.mod_eq_of_lt h

theorem mul64_eq (a b : Nat) (h : a * b < 2 ^ 64) : mul64 a b = a * b :=
  Nat.mod_eq_of_lt h

theorem sub64_eq (a b : Nat) (hb : b ≤ a) (ha : a < 2 ^ 64) : sub64 a b = a - b := by
  unfold sub64
  omega

theorem num_pages_per_task_eq (size k : Nat) (hk : 0 < k) (hs : size < 2 ^ 63)
    (hk32 : k < 2 ^ 32) : num_pages_per_task size k = ceilDiv size k := by
  unfold num_pages_per_task ceilDiv
  rw [add64_eq size k (by omega), sub64_eq (size + k) 1 (by omega) (by omega)]

theorem asyncTaskRange_eq (begin end_swip k i : Nat) (hk : 0 < k) (hk32 : k < 2 ^ 32)
    (hbe : begin ≤ end_swip) (hend : end_swip < 2 ^ 63) (hi : i < k) :
    asyncTaskRange begin end_swip k i
      = (begin + (specRun (end_swip - begin) k i).1,
         begin + (specRun (end_swip - begin) k i).2) := by
  have h1 := ceilDiv_mul_le (end_swip - begin) k
  have h2 : i * ceilDiv (end_swip - begin) k ≤ ceilDiv (end_swip - begin) k * k := by
    rw [Nat.mul_comm]
    exact Nat.mul_le_mul_left _ (Nat.le_of_lt hi)
  have h3 : ceilDiv (end_swip - begin) k ≤ ceilDiv (end_swip - begin) k * k :=
    Nat.le_mul_of_pos_right _ hk
  unfold asyncTaskRange
  simp only [sub64_eq end_swip begin hbe (by omega)]
  have h4 := min_le_right (begin + i * ceilDiv (end_swip - begin) k) end_swip
  have h5 := ceilDiv_le_self (end_swip - begin) k hk
  rw [num_pages_per_task_eq (end_swip - begin) k hk (by omega) hk32,
    mul64_eq i _ (by omega), add64_eq begin _ (by omega), add64_eq _ _ (by omega)]
  simp only [specRun, Prod.mk.injEq]
  omega

theorem Populate_partition_size_eq (size : Nat) (hs : size < 2 ^ 63) :
    Populate_partition_size size = ceilDiv size 64 := by
  unfold Populate_partition_size ceilDiv kNumConcurrentTasks
  rw [add64_eq size 64 (by omega), sub64_eq (size + 64) 1 (by omega) (by omega)]

theorem populateTaskRange_eq (size i : Nat) (hs : size < 2 ^ 63) (hi : i < 64) :
    populateTaskRange size i = specRun size 64 i := by
  have h1 := ceilDiv_mul_le size 64
  have h2 : i * ceilDiv size 64 ≤ ceilDiv size 64 * 64 := by
    rw [Nat.mul_comm]
    exact Nat.mul_le_mul_left _ (Nat.le_of_lt hi)
  have h3 : ceilDiv size 64 ≤ ceilDiv size 64 * 64 := Nat.le_mul_of_pos_right _ (by omega)
  have h4 := min_le_right (i * ceilDiv size 64) size
  have h5 := ceilDiv_le_self size 64 (by omega)
  unfold populateTaskRange
  dsimp only
  rw [Populate_partition_size_eq size hs, mul64_eq i _ (by omega), add64_eq _ _ (by omega)]
  rfl

theorem populateFrames_eq (size : Nat) (hs : size < 2 ^ 63) : populateFrames size = size := by
  unfold populateFrames kNumConcurrentTasks
  have h : (List.range 64).map
      (fun i => (populateTaskRange size i).2 - (populateTaskRange size i).1)
      = (List.range 64).map (fun i => (specRun size 64 i).2 - (specRun size 64 i).1) := by
    apply List.map_congr_left
    intro i hi
    rw [populateTaskRange_eq size i hs (List.mem_range.1 hi)]
  rw [h, specRun_length_sum]
  have := specRun_last size 64 (by omega)
  rw [specRun_next] at this
  exact this

/-! ## The sweep of `main` -/

theorem main_partition_size_eq (n : Nat) (hn : n < 2 ^ 63) :
    main_partition_size n = ceilDiv n 10 := by
  unfold main_partition_size ceilDiv
  rw [add64_eq n 9 (by omega)]
  rfl

theorem num_cached_pages_eq (n i : Nat) (hn : n < 2 ^ 63) (hi : i ≤ 10) :
    num_cached_pages n i = (specRun n 10 i).1 := by
  have h1 := ceilDiv_mul_le n 10
  have h2 : i * ceilDiv n 10 ≤ ceilDiv n 10 * 10 := by
    rw [Nat.mul_comm]
    exact Nat.mul_le_mul_left _ hi
  unfold num_cached_pages
  rw [main_partition_size_eq n hn, mul64_eq i _ (by omega)]
  rfl

theorem populateOffset_eq (n j : Nat) (hn : n < 2 ^ 63) (hj : j < 10) :
    populateOffset n (j + 1) = (specRun n 10 j).1 := by
  have h := num_cached_pages_eq n j hn (Nat.le_of_lt hj)
  unfold num_cached_pages at h
  unfold populateOffset
  rw [Nat.add_sub_cancel]
  exact h

theorem populateEnd_eq (n j : Nat) (hn : n < 2 ^ 63) (hj : j < 10) :
    populateOffset n (j + 1) + populateSize n (j + 1) = (specRun n 10 j).2 := by
  have h1 := populateOffset_eq n j hn hj
  have h2 : (specRun n 10 j).1 ≤ n := min_le_right _ _
  unfold populateSize
  rw [h1, main_partition_size_eq n hn, sub64_eq n _ h2 (by omega)]
  simp only [specRun] at h2 ⊢
  omega

theorem populateSize_eq (n j : Nat) (hn : n < 2 ^ 63) (hj : j < 10) :
    populateSize n (j + 1) = (specRun n 10 j).2 - (specRun n 10 j).1 := by
  have h1 := populateOffset_eq n j hn hj
  have h2 := populateEnd_eq n j hn hj
  omega

theorem populateSize_le (n j : Nat) (hn : n < 2 ^ 63) (hj : j < 10) :
    populateSize n (j + 1) ≤ n := by
  rw [populateSize_eq n j hn hj]
  have : (specRun n 10 j).2 ≤ n := min_le_right _ _
  omega

theorem populateSize_sum (n i : Nat) (hn : n < 2 ^ 63) (hi : i ≤ 10) :
    ((List.range i).map (fun j => populateSize n (j + 1))).sum = num_cached_pages n i := by
  have h : (List.range i).map (fun j => populateSize n (j + 1))
      = (List.range i).map (fun j => (specRun n 10 j).2 - (specRun n 10 j).1) := by
    apply List.map_congr_left
    intro j hj
    exact populateSize_eq n j hn (lt_of_lt_of_le (List.mem_range.1 hj) hi)
  rw [h, specRun_length_sum, num_cached_pages_eq n i hn hi]

theorem framesAfterStage_eq (n i : Nat) (hn : n < 2 ^ 63) (hi : i ≤ 10) :
    framesAfterStage n i = num_cached_pages n i := by
  unfold framesAfterStage
  have h : (List.range i).map (fun j => populateFrames (populateSize n (j + 1)))
      = (List.range i).map (fun j => populateSize n (j + 1)) := by
    apply List.map_congr_left
    intro j hj
    have hj' := lt_of_lt_of_le (List.mem_range.1 hj) hi
    exact populateFrames_eq _ (lt_of_le_of_lt (populateSize_le n j hn hj') hn)
  rw [h, populateSize_sum n i hn hi]

theorem populatedPositions_eq (swip_indexes : List Nat) (hn : swip_indexes.length < 2 ^ 63)
    (i : Nat) (hi : i ≤ 10) :
    populatedPositions swip_indexes i
      = swip_indexes.take (num_cached_pages swip_indexes.length i) := by
  induction i with
  | zero =>
    rw [num_cached_pages_eq _ 0 hn (by omega), specRun_first]
    rfl
  | succ i ih =>
    have hi' : i < 10 := hi
    unfold populatedPositions at ih ⊢
    rw [List.range_succ, List.flatMap_append, ih (by omega)]
    simp only [List.flatMap_cons, List.flatMap_nil, List.append_nil]
    have h1 := populateEnd_eq swip_indexes.length i hn hi'
    rw [populateOffset_eq _ i hn hi', populateSize_eq _ i hn hi',
      num_cached_pages_eq _ i hn (by omega), num_cached_pages_eq _ (i + 1) hn hi,
      ← List.take_add, ← specRun_next]
    congr 1
    have := specRun_le swip_indexes.length 10 i
    omega

theorem GetSwips_num_pages_lt (size_of_data_file kPageSize : Nat)
    (hfile : size_of_data_file < 2 ^ 64) (hpage : 2 ≤ kPageSize) :
    GetSwips_num_pages size_of_data_file kPageSize < 2 ^ 63 := by
  unfold GetSwips_num_pages
  apply Nat.div_lt_of_lt_mul
  have : 2 * 2 ^ 63 ≤ kPageSize * 2 ^ 63 := Nat.mul_le_mul_right _ hpage
  omega

/-! ## The worker's loop -/

theorem workerLoop_not_fellThrough (num_swips : Nat) (entry res : WorkerResources)
    (begins : List Nat) : workerLoop num_swips entry begins ≠ LoopExit.fellThrough res := by
  induction begins with
  | nil => simp [workerLoop]
  | cons b begins ih =>
    unfold workerLoop
    split
    · simp
    · exact ih

theorem workerLoop_returned (num_swips : Nat) (entry res : WorkerResources)
    (begins : List Nat) (h : workerLoop num_swips entry begins = LoopExit.returned res) :
    res = entry ∧ ∃ b ∈ begins, num_swips ≤ b := by
  induction begins with
  | nil => simp [workerLoop] at h
  | cons b begins ih =>
    unfold workerLoop at h
    split at h
    · rename_i hb
      simp only [LoopExit.returned.injEq] at h
      exact ⟨h.symm, b, List.mem_cons_self _ _, hb⟩
    · obtain ⟨h1, b', hb', hle⟩ := ih h
      exact ⟨h1, b', List.mem_cons_of_mem _ hb', hle⟩

/-! ## The `FixedAllocator` invariant -/

theorem mem_slabBlocks (allocation_size num_blocks slab : Nat) (p : BlockPtr) :
    p ∈ slabBlocks allocation_size num_blocks slab
      ↔ p.slab = slab ∧ ∃ j, j < num_blocks ∧ p.offset = j * allocation_size := by
  unfold slabBlocks
  rw [List.mem_map]
  constructor
  · rintro ⟨j, hj, rfl⟩
    exact ⟨rfl, j, List.mem_range.1 hj, rfl⟩
  · rintro ⟨hs, j, hj, ho⟩
    refine ⟨j, List.mem_range.2 hj, ?_⟩
    cases p
    simp only at hs ho
    rw [hs, ho]

theorem mem_allBlocks (allocation_size num_blocks num_slabs : Nat) (p : BlockPtr) :
    p ∈ allBlocks allocation_size num_blocks num_slabs
      ↔ p.slab < num_slabs ∧ ∃ j, j < num_blocks ∧ p.offset = j * allocation_size := by
  unfold allBlocks
  rw [List.mem_flatMap]
  constructor
  · rintro ⟨k, hk, hp⟩
    obtain ⟨hs, hj⟩ := (mem_slabBlocks _ _ _ _).1 hp
    exact ⟨hs ▸ List.mem_range.1 hk, hj⟩
  · rintro ⟨hs, hj⟩
    exact ⟨p.slab, List.mem_range.2 hs, (mem_slabBlocks _ _ _ _).2 ⟨rfl, hj⟩⟩

theorem allBlocks_succ (allocation_size num_blocks num_slabs : Nat) :
    allBlocks allocation_size num_blocks (num_slabs + 1)
      = allBlocks allocation_size num_blocks num_slabs
        ++ slabBlocks allocation_size num_blocks num_slabs := by
  unfold allBlocks
  rw [List.range_succ, List.flatMap_append]
  simp

theorem slabBlocks_nodup (allocation_size num_blocks slab : Nat) (has : 0 < allocation_size) :
    (slabBlocks allocation_size num_blocks slab).Nodup := by
  unfold slabBlocks
  refine List.Nodup.map ?_ (List.nodup_range _)
  intro i j hij
  simp only [BlockPtr.mk.injEq, true_and] at hij
  exact Nat.eq_of_mul_eq_mul_right has hij

theorem allBlocks_nodup (allocation_size num_blocks num_slabs : Nat)
    (has : 0 < allocation_size) : (allBlocks allocation_size num_blocks num_slabs).Nodup := by
  induction num_slabs with
  | zero => simp [allBlocks]
  | succ n ih =>
    rw [allBlocks_succ, List.nodup_append]
    refine ⟨ih, slabBlocks_nodup _ _ _ has, ?_⟩
    intro p hp hq
    have h1 := ((mem_allBlocks _ _ _ _).1 hp).1
    have h2 := ((mem_slabBlocks _ _ _ _).1 hq).1
    omega

theorem allBlocks_not_overlap (allocation_size num_blocks num_slabs : Nat) (p q : BlockPtr)
    (hp : p ∈ allBlocks allocation_size num_blocks num_slabs)
    (hq : q ∈ allBlocks allocation_size num_blocks num_slabs) (hne : p ≠ q) :
    ¬ blocksOverlap allocation_size p q := by
  rintro ⟨hs, h1, h2⟩
  obtain ⟨_, i, _, hi⟩ := (mem_allBlocks _ _ _ _).1 hp
  obtain ⟨_, j, _, hj⟩ := (mem_allBlocks _ _ _ _).1 hq
  apply hne
  rw [hi, hj] at h1 h2
  have h3 : i * allocation_size < (j + 1) * allocation_size := by
    rw [Nat.add_mul, Nat.one_mul]; exact h1
  have h4 : j * allocation_size < (i + 1) * allocation_size := by
    rw [Nat.add_mul, Nat.one_mul]; exact h2
  have h5 := Nat.lt_of_mul_lt_mul_right h3
  have h6 := Nat.lt_of_mul_lt_mul_right h4
  have hij : i = j := by omega
  cases p
  cases q
  simp only at hs hi hj
  rw [hs, hi, hj, hij]

theorem allBlocks_in_slab (allocation_size num_blocks num_slabs : Nat) (p : BlockPtr)
    (hp : p ∈ allBlocks allocation_size num_blocks num_slabs) :
    p.slab < num_slabs ∧ p.offset + allocation_size ≤ allocation_size * num_blocks := by
  obtain ⟨hs, j, hj, ho⟩ := (mem_allBlocks _ _ _ _).1 hp
  refine ⟨hs, ?_⟩
  have h : (j + 1) * allocation_size ≤ num_blocks * allocation_size :=
    Nat.mul_le_mul_right _ hj
  rw [Nat.add_mul, Nat.one_mul, Nat.mul_comm num_blocks] at h
  omega

theorem allocatorInv_init (allocation_size num_blocks : Nat) (hnb : 0 < num_blocks)
    (hnb16 : num_blocks < 2 ^ 16) (hsize : allocation_size * num_blocks < 2 ^ 32) :
    AllocatorInv allocation_size num_blocks
      ⟨FixedAllocator.init allocation_size num_blocks, []⟩ := by
  have has32 : allocation_size < 2 ^ 32 :=
    lt_of_le_of_lt (Nat.le_mul_of_pos_right _ hnb) hsize
  exact ⟨by simp [FixedAllocator.init, allBlocks],
    fun s hs => by simp [FixedAllocator.init] at hs,
    Nat.mod_eq_of_lt has32, Nat.mod_eq_of_lt hnb16⟩

/-- Popping the back of a free list that holds the blocks `free`: the block
moves to the outstanding ones and the invariant is kept. -/
theorem pop_spec (allocation_size num_blocks : Nat) (has : 0 < allocation_size)
    (fixed : FixedAllocator) (outstanding : List BlockPtr) (hne : fixed.free_list ≠ [])
    (hinv : AllocatorInv allocation_size num_blocks ⟨fixed, outstanding⟩) :
    ∃ result, fixed.free_list.getLast? = some result ∧ result ∉ outstanding ∧
      AllocatorInv allocation_size num_blocks
        ⟨{ fixed with free_list := fixed.free_list.dropLast }, result :: outstanding⟩ := by
  obtain ⟨hperm, hsize, h1, h2⟩ := hinv
  cases hlast : fixed.free_list.getLast? with
  | none => exact absurd (List.getLast?_eq_none_iff.1 hlast) hne
  | some result =>
    have hsplit : fixed.free_list.dropLast ++ [result] = fixed.free_list :=
      List.dropLast_append_getLast? result (by rw [hlast]; exact rfl)
    have hnodup : (fixed.free_list ++ outstanding).Nodup :=
      (hperm.nodup_iff).2 (allBlocks_nodup _ _ _ has)
    refine ⟨result, rfl, ?_, ?_, hsize, h1, h2⟩
    · intro hmem
      have hdisj := (List.nodup_append.1 hnodup).2.2
      exact hdisj (by rw [← hsplit]; simp) hmem
    · show (fixed.free_list.dropLast ++ result :: outstanding).Perm _
      have heq : fixed.free_list.dropLast ++ result :: outstanding
          = fixed.free_list ++ outstanding := by
        calc fixed.free_list.dropLast ++ result :: outstanding
            = (fixed.free_list.dropLast ++ [result]) ++ outstanding := by simp
          _ = fixed.free_list ++ outstanding := by rw [hsplit]
      rw [heq]
      exact hperm

theorem refill_spec (allocation_size num_blocks : Nat) (hnb : 0 < num_blocks)
    (hsize : allocation_size * num_blocks < 2 ^ 32)
    (fixed : FixedAllocator) (outstanding : List BlockPtr) (hempty : fixed.free_list = [])
    (hinv : AllocatorInv allocation_size num_blocks ⟨fixed, outstanding⟩) :
    fixed.refill.free_list ≠ [] ∧
    fixed.refill.allocator = fixed.allocator ++ [allocation_size * num_blocks] ∧
    AllocatorInv allocation_size num_blocks ⟨fixed.refill, outstanding⟩ := by
  obtain ⟨hperm, hsz, h1, h2⟩ := hinv
  simp only at hperm hsz h1 h2
  have hfree : fixed.refill.free_list
      = slabBlocks allocation_size num_blocks fixed.allocator.length := by
    simp [FixedAllocator.refill, hempty, h1, h2, slabBlocks]
  have halloc : fixed.refill.allocator = fixed.allocator ++ [allocation_size * num_blocks] := by
    show fixed.allocator ++ [(fixed.allocation_size * fixed.num_blocks) % 2 ^ 32] = _
    rw [h1, h2, Nat.mod_eq_of_lt hsize]
  refine ⟨?_, halloc, ?_, ?_, h1, h2⟩
  · rw [hfree]
    intro h
    have hlen := congrArg List.length h
    simp [slabBlocks] at hlen
    omega
  · show (fixed.refill.free_list ++ outstanding).Perm _
    rw [hfree, halloc, List.length_append, List.length_singleton, allBlocks_succ]
    rw [hempty, List.nil_append] at hperm
    exact List.perm_append_comm.trans (hperm.append_right _)
  · intro s hs
    rw [halloc, List.mem_append, List.mem_singleton] at hs
    rcases hs with hs | hs
    · exact hsz s hs
    · exact hs

theorem allocate_spec (allocation_size num_blocks : Nat) (has : 0 < allocation_size)
    (hnb : 0 < num_blocks) (hsize : allocation_size * num_blocks < 2 ^ 32)
    (st : AllocatorTrace) (hinv : AllocatorInv allocation_size num_blocks st) :
    ∃ result fixed, st.fixed.allocate = some (result, fixed) ∧ result ∉ st.outstanding ∧
      st.fixed.allocator <+: fixed.allocator ∧
      AllocatorInv allocation_size num_blocks ⟨fixed, result :: st.outstanding⟩ := by
  obtain ⟨fixed0, outstanding⟩ := st
  by_cases hempty : fixed0.free_list = []
  · obtain ⟨hne, halloc, hinv'⟩ :=
      refill_spec allocation_size num_blocks hnb hsize fixed0 outstanding hempty hinv
    obtain ⟨result, hlast, hnot, hinv''⟩ :=
      pop_spec allocation_size num_blocks has fixed0.refill outstanding hne hinv'
    refine ⟨result, { fixed0.refill with free_list := fixed0.refill.free_list.dropLast }, ?_,
      hnot, ?_, hinv''⟩
    · simp [FixedAllocator.allocate, hempty, hlast]
    · show fixed0.allocator <+: fixed0.refill.allocator
      rw [halloc]
      exact List.prefix_append _ _
  · obtain ⟨result, hlast, hnot, hinv''⟩ :=
      pop_spec allocation_size num_blocks has fixed0 outstanding hempty hinv
    refine ⟨result, { fixed0 with free_list := fixed0.free_list.dropLast }, ?_, hnot,
      List.prefix_refl _, hinv''⟩
    simp [FixedAllocator.allocate, hempty, hlast]

theorem deallocate_spec (allocation_size num_blocks : Nat) (st : AllocatorTrace)
    (p : BlockPtr) (hp : p ∈ st.outstanding)
    (hinv : AllocatorInv allocation_size num_blocks st) :
    AllocatorInv allocation_size num_blocks
      ⟨st.fixed.deallocate p, st.outstanding.erase p⟩ := by
  obtain ⟨hperm, hsz, h1, h2⟩ := hinv
  refine ⟨?_, hsz, h1, h2⟩
  show ((st.fixed.free_list ++ [p]) ++ st.outstanding.erase p).Perm _
  refine List.Perm.trans ?_ hperm
  rw [List.append_assoc]
  exact List.Perm.append_left _ (List.perm_cons_erase hp).symm

theorem callAllocator_spec (allocation_size num_blocks : Nat) (has : 0 < allocation_size)
    (hnb : 0 < num_blocks) (hsize : allocation_size * num_blocks < 2 ^ 32)
    (st : AllocatorTrace) (hinv : AllocatorInv allocation_size num_blocks st)
    (call : AllocatorCall) :
    callAllocator st call = CallResult.notOutstanding ∨
    ∃ st', callAllocator st call = CallResult.ok st' ∧
      AllocatorInv allocation_size num_blocks st' ∧
      st.fixed.allocator <+: st'.fixed.allocator := by
  cases call with
  | allocate =>
    obtain ⟨result, fixed, h1, _, h3, h4⟩ :=
      allocate_spec allocation_size num_blocks has hnb hsize st hinv
    exact Or.inr ⟨_, by simp [callAllocator, h1], h4, h3⟩
  | deallocate p =>
    by_cases hp : p ∈ st.outstanding
    · exact Or.inr ⟨_, by simp [callAllocator, hp],
        deallocate_spec allocation_size num_blocks st p hp hinv, List.prefix_refl _⟩
    · exact Or.inl (by simp [callAllocator, hp])

theorem runAllocator_spec (allocation_size num_blocks : Nat) (has : 0 < allocation_size)
    (hnb : 0 < num_blocks) (hsize : allocation_size * num_blocks < 2 ^ 32)
    (calls : List AllocatorCall) (st : AllocatorTrace)
    (hinv : AllocatorInv allocation_size num_blocks st) :
    runAllocator st calls = CallResult.notOutstanding ∨
    ∃ st', runAllocator st calls = CallResult.ok st' ∧
      AllocatorInv allocation_size num_blocks st' ∧
      st.fixed.allocator <+: st'.fixed.allocator := by
  induction calls generalizing st with
  | nil => exact Or.inr ⟨st, rfl, hinv, List.prefix_refl _⟩
  | cons call calls ih =>
    rcases callAllocator_spec allocation_size num_blocks has hnb hsize st hinv call with
      h | ⟨st1, h1, h2, h3⟩
    · exact Or.inl (by simp [runAllocator, h])
    · rcases ih st1 h2 with h | ⟨st2, h4, h5, h6⟩
      · exact Or.inl (by simp [runAllocator, h1, h])
      · exact Or.inr ⟨st2, by simp [runAllocator, h1, h4], h5, h3.trans h6⟩

theorem runAllocator_append (st : AllocatorTrace) (calls calls' : List AllocatorCall)
    (st' : AllocatorTrace) (h : runAllocator st calls = CallResult.ok st') :
    runAllocator st (calls ++ calls') = runAllocator st' calls' := by
  induction calls generalizing st with
  | nil =>
    simp only [runAllocator, CallResult.ok.injEq] at h
    rw [h]
    rfl
  | cons call calls ih =>
    simp only [runAllocator, List.cons_append] at h ⊢
    cases hc : callAllocator st call with
    | ok st1 =>
      rw [hc] at h
      simp only at h ⊢
      exact ih st1 h
    | popFromEmpty => rw [hc] at h; cases h
    | notOutstanding => rw [hc] at h; cases h

/-- Order independence of the merge for tables that are sparse and stamped:
`DoPostProcessing` gives the same result for every permutation of the tables,
and a defined one when there is at least one table. -/
theorem DoPostProcessing_perm (workers workers' : List Worker)
    (hp : workers.Perm workers') (hs : ∀ w ∈ workers, Sparse w)
    (hst : ∀ w ∈ workers, Stamped w.1) :
    DoPostProcessing workers' = DoPostProcessing workers ∧
    (workers ≠ [] →
      DoPostProcessing workers = some (entriesInSlotOrder (mergedTable workers))) := by
  refine ⟨?_, fun hne => DoPostProcessing_eq workers hne hs hst⟩
  by_cases hne : workers = []
  · subst hne
    rw [List.nil_perm.1 hp]
  · have hne' : workers' ≠ [] := fun h => hne (List.perm_nil.1 (h ▸ hp))
    rw [DoPostProcessing_eq workers hne hs hst,
      DoPostProcessing_eq workers' hne'
        (fun w hw => hs w (hp.mem_iff.2 hw)) (fun w hw => hst w (hp.mem_iff.2 hw)),
      mergedTable_perm workers workers' hp hst]

/-! ## The claims -/

/-- C1: `ProcessTuples` run on an empty table leaves the slot `(rf << 8) | ls`
non-empty exactly when some valid tuple with `l_shipdate <= high_date` carries
the group `(rf, ls)`; the entry is then stamped with `rf` and `ls`, its count
is the number of those tuples, and `sum_qty`, `sum_base_price`, `sum_disc` are
the sums of `l_quantity`, `l_extendedprice`, `l_discount` over exactly those
tuples. Positions at or beyond `num_tuples` and filtered tuples do not occur in
any of these sums. -/
theorem C1_ProcessTuples_on_empty_table (castM2 : Numeric → Numeric)
    (page : LineitemPageQ1) (high_date : Date) (hn : page.num_tuples < 2 ^ 32)
    (rf ls : Char) :
    let result := ProcessTuples castM2 page emptyHashTable [] high_date
    let group := (List.range page.num_tuples).filter (fun i =>
      decide (page.l_shipdate i ≤ high_date ∧ page.l_returnflag i = rf
        ∧ page.l_linestatus i = ls))
    (result.1 ((rf.val <<< 8) ||| ls.val) ≠ none ↔
      ∃ i, i < page.num_tuples ∧ page.l_shipdate i ≤ high_date
        ∧ page.l_returnflag i = rf ∧ page.l_linestatus i = ls) ∧
    (∀ entry, result.1 ((rf.val <<< 8) ||| ls.val) = some entry →
      entry.l_returnflag = rf ∧ entry.l_linestatus = ls ∧
      entry.count = group.length ∧
      entry.sum_qty = (group.map page.l_quantity).sum ∧
      entry.sum_base_price = (group.map page.l_extendedprice).sum ∧
      entry.sum_disc = (group.map page.l_discount).sum) := by
  intro result group
  have hslot : result.1 ((rf.val <<< 8) ||| ls.val)
      = slotAfter castM2 none (group.map page.tuple) := by
    rw [← hashTableIndex_eq_lor]
    show (ProcessTuples castM2 page emptyHashTable [] high_date).1 _ = _
    rw [ProcessTuples_slot, group_filter_eq]
    rfl
  have hlen : group.length < 2 ^ 32 :=
    lt_of_le_of_lt ((List.length_filter_le _ _).trans (by simp)) hn
  have hmem : ∀ i, i ∈ group ↔ i < page.num_tuples ∧ page.l_shipdate i ≤ high_date
      ∧ page.l_returnflag i = rf ∧ page.l_linestatus i = ls := by
    intro i; simp [group]
  rw [hslot]
  cases hg : group with
  | nil =>
    refine ⟨⟨fun h => absurd rfl h, fun ⟨i, hi⟩ => ?_⟩, fun e he => by cases he⟩
    have := (hmem i).2 hi
    rw [hg] at this
    cases this
  | cons i0 g =>
    have hi0 := (hmem i0).1 (by rw [hg]; exact List.mem_cons_self _ _)
    refine ⟨⟨fun _ => ⟨i0, hi0⟩, fun _ => by simp [slotAfter]⟩, ?_⟩
    intro e he
    simp only [slotAfter, List.map_cons, Option.getD_none, Option.some.injEq] at he
    subst he
    rw [hg] at hlen
    refine ⟨?_, ?_, ?_, ?_, ?_, ?_⟩
    · rw [foldEntry_returnflag]; exact hi0.2.2.1
    · rw [foldEntry_linestatus]; exact hi0.2.2.2
    · rw [foldEntry_count]
      simp only [freshEntry, List.length_cons, List.length_map] at hlen ⊢
      omega
    · rw [foldEntry_sum_qty]
      simp only [freshEntry, List.map_cons, List.map_map, List.sum_cons, zero_add]
      rfl
    · rw [foldEntry_sum_base_price]
      simp only [freshEntry, List.map_cons, List.map_map, List.sum_cons, zero_add]
      rfl
    · rw [foldEntry_sum_disc]
      simp only [freshEntry, List.map_cons, List.map_map, List.sum_cons, zero_add]
      rfl

/-- C1 at the three-tuple page: the slot of group `(A, F)` is non-empty exactly
because a tuple of that group passes the filter. -/
theorem C1_ProcessTuples_on_empty_table_witness :
    (ProcessTuples castM2Trunc scenarioPage emptyHashTable [] scenarioHighDate).1
        (((65 : Char).val <<< 8) ||| (70 : Char).val) ≠ none ↔
      ∃ i, i < scenarioPage.num_tuples ∧ scenarioPage.l_shipdate i ≤ scenarioHighDate
        ∧ scenarioPage.l_returnflag i = 65 ∧ scenarioPage.l_linestatus i = 70 :=
  (C1_ProcessTuples_on_empty_table castM2Trunc scenarioPage scenarioHighDate
    (by decide) 65 70).1

/-- C2: every tuple that passes the filter adds `l_extendedprice * (100 -
l_discount)` to `sum_disc_price` and `castM2 (l_extendedprice * (100 -
l_discount)) * (100 + l_tax)` to `sum_charge` of its slot (starting from zero
in a slot that was empty); hence after a page the two fields of a group have
grown by the sums of these integer terms over the qualifying tuples of the
group. -/
theorem C2_disc_price_and_charge (castM2 : Numeric → Numeric) (page : LineitemPageQ1)
    (hash_table : HashTable) (valid : ValidHashTableIndexes) (high_date : Date)
    (rf ls : Char) :
    (∀ (st : HashTable × ValidHashTableIndexes) (t : Tuple), t.l_shipdate ≤ high_date →
      ∃ entry,
        (processTuple castM2 high_date st t).1 (hashTableIndex t.l_returnflag t.l_linestatus)
          = some entry ∧
        entry.sum_disc_price
          = ((st.1 (hashTableIndex t.l_returnflag t.l_linestatus)).getD
              (freshEntry t.l_returnflag t.l_linestatus)).sum_disc_price
            + t.l_extendedprice * (100 - t.l_discount) ∧
        entry.sum_charge
          = ((st.1 (hashTableIndex t.l_returnflag t.l_linestatus)).getD
              (freshEntry t.l_returnflag t.l_linestatus)).sum_charge
            + castM2 (t.l_extendedprice * (100 - t.l_discount)) * (100 + t.l_tax)) ∧
    (let result := ProcessTuples castM2 page hash_table valid high_date
     let group := (List.range page.num_tuples).filter (fun i =>
       decide (page.l_shipdate i ≤ high_date ∧ page.l_returnflag i = rf
         ∧ page.l_linestatus i = ls))
     let base := (hash_table (hashTableIndex rf ls)).getD (freshEntry rf ls)
     group ≠ [] →
      ∃ entry, result.1 (hashTableIndex rf ls) = some entry ∧
        entry.sum_disc_price = base.sum_disc_price
          + (group.map (fun i =>
              page.l_extendedprice i * (100 - page.l_discount i))).sum ∧
        entry.sum_charge = base.sum_charge
          + (group.map (fun i =>
              castM2 (page.l_extendedprice i * (100 - page.l_discount i))
                * (100 + page.l_tax i))).sum) := by
  refine ⟨?_, ?_⟩
  · intro st t hd
    have hq : qualifies high_date (hashTableIndex t.l_returnflag t.l_linestatus) t = true := by
      simp [qualifies, hd]
    refine ⟨_, by rw [processTuple_slot, if_pos hq], ?_, ?_⟩
    · simp only [accumulate, one]
    · simp only [accumulate, one]
  · intro result group base hne
    have hslot : result.1 (hashTableIndex rf ls)
        = slotAfter castM2 (hash_table (hashTableIndex rf ls)) (group.map page.tuple) := by
      show (ProcessTuples castM2 page hash_table valid high_date).1 _ = _
      rw [ProcessTuples_slot, group_filter_eq]
    rw [hslot]
    cases hg : group with
    | nil => exact absurd hg hne
    | cons i0 g =>
      have hi0 : i0 ∈ group := by rw [hg]; exact List.mem_cons_self _ _
      have hk := (List.mem_filter.1 hi0).2
      simp only [decide_eq_true_eq] at hk
      have hbase : (hash_table (hashTableIndex rf ls)).getD
          (freshEntry (page.tuple i0).l_returnflag (page.tuple i0).l_linestatus) = base := by
        show (hash_table (hashTableIndex rf ls)).getD
          (freshEntry (page.l_returnflag i0) (page.l_linestatus i0)) = _
        rw [hk.2.1, hk.2.2]
      refine ⟨_, rfl, ?_, ?_⟩
      · simp only [List.map_cons] at hbase ⊢
        rw [hbase, foldEntry_sum_disc_price]
        simp only [List.map_cons, List.map_map, List.sum_cons]
        rfl
      · simp only [List.map_cons] at hbase ⊢
        rw [hbase, foldEntry_sum_charge]
        simp only [List.map_cons, List.map_map, List.sum_cons]
        rfl

/-- C2 at the three-tuple page, started on an empty table: the two `(A, F)`
tuples give `sum_disc_price = 2116823 * 96 + 1000 * 90` and
`sum_charge = 2032150 * 102 + 900 * 100`. -/
theorem C2_disc_price_and_charge_witness :
    ∃ entry,
      (ProcessTuples castM2Trunc scenarioPage emptyHashTable [] scenarioHighDate).1
          (hashTableIndex 65 70) = some entry ∧
      entry.sum_disc_price = 203305008 ∧ entry.sum_charge = 207369300 :=
  (C2_disc_price_and_charge castM2Trunc scenarioPage emptyHashTable [] scenarioHighDate
    65 70).2 (by decide)

/-- C3: the sparsity witness (no duplicates in the valid-index list, and the
list holds exactly the non-empty slots) holds for a freshly constructed table,
is preserved by `ProcessTuples` for every page and high date, and holds for
worker 0's table and list after the merge loop, which then runs to its end,
whenever it held for every worker before the merge. -/
theorem C3_sparsity_witness :
    Sparse (emptyHashTable, []) ∧
    (∀ (castM2 : Numeric → Numeric) (page : LineitemPageQ1) (hash_table : HashTable)
        (valid : ValidHashTableIndexes) (high_date : Date),
      Sparse (hash_table, valid) →
        Sparse (ProcessTuples castM2 page hash_table valid high_date)) ∧
    (∀ workers : List Worker, workers ≠ [] → (∀ w ∈ workers, Sparse w) →
      ∃ result, mergeLoop workers = some result ∧ Sparse result) := by
  refine ⟨sparse_empty, ?_, ?_⟩
  · intro castM2 page hash_table valid high_date h
    exact ProcessTuples_sparse castM2 page hash_table valid high_date h
  · intro workers hne hw
    obtain ⟨r, h1, h2, _⟩ := mergeLoop_spec workers hne hw
    exact ⟨r, h1, h2⟩

/-- C3 at two workers, one that processed the three-tuple page and one whose
table is still empty: the merge loop ends with a sparse result. -/
theorem C3_sparsity_witness_witness :
    ∃ result,
      mergeLoop [ProcessTuples castM2Trunc scenarioPage emptyHashTable [] scenarioHighDate,
        (emptyHashTable, [])] = some result ∧ Sparse result :=
  C3_sparsity_witness.2.2 _ (by simp) (by
    intro w hw
    simp only [List.mem_cons, List.mem_singleton, List.not_mem_nil, or_false] at hw
    rcases hw with rfl | rfl
    · exact C3_sparsity_witness.2.1 _ _ _ _ _ C3_sparsity_witness.1
    · exact C3_sparsity_witness.1)

/-- C4: for every list of pages and every way of handing them to one or more
workers (`assign` lists, per worker, the pages in the order the worker
processes them; together they are a rearrangement of `pages`), the sorted
result of `DoPostProcessing` is defined and equals the result of one worker
that applies `ProcessTuples` to all pages in file order. Two such
assignments, as made by a synchronous and an asynchronous run, therefore give
the same result. -/
theorem C4_parallel_equals_single_worker (castM2 : Numeric → Numeric) (high_date : Date)
    (pages : List LineitemPageQ1) (assign assign' : List (List LineitemPageQ1))
    (hne : assign ≠ []) (hp : assign.flatten.Perm pages)
    (hne' : assign' ≠ []) (hp' : assign'.flatten.Perm pages) :
    DoPostProcessing (assign.map (runWorker castM2 high_date))
        = DoPostProcessing [runWorker castM2 high_date pages] ∧
    DoPostProcessing (assign.map (runWorker castM2 high_date))
        = DoPostProcessing (assign'.map (runWorker castM2 high_date)) ∧
    DoPostProcessing [runWorker castM2 high_date pages]
        = some (entriesInSlotOrder (runWorker castM2 high_date pages).1) := by
  have key : ∀ a : List (List LineitemPageQ1), a ≠ [] → a.flatten.Perm pages →
      DoPostProcessing (a.map (runWorker castM2 high_date))
        = some (entriesInSlotOrder (runWorker castM2 high_date pages).1) := by
    intro a ha hpa
    rw [DoPostProcessing_eq _ (by simpa using ha)
      (fun w hw => by
        obtain ⟨ps, _, rfl⟩ := List.mem_map.1 hw
        exact runWorker_sparse castM2 high_date ps)
      (fun w hw => by
        obtain ⟨ps, _, rfl⟩ := List.mem_map.1 hw
        exact runWorker_stamped castM2 high_date ps),
      mergedTable_runWorker castM2 high_date pages a hpa]
  have single := key [pages] (by simp) (by simp)
  simp only [List.map_cons, List.map_nil] at single
  exact ⟨(key assign hne hp).trans single.symm,
    (key assign hne hp).trans (key assign' hne' hp').symm, single⟩

/-- C4 at two pages: two workers taking one page each, the second page first,
against one worker taking both pages. -/
theorem C4_parallel_equals_single_worker_witness :
    DoPostProcessing ([[scenarioPage2], [scenarioPage]].map
        (runWorker castM2Trunc scenarioHighDate))
      = DoPostProcessing [runWorker castM2Trunc scenarioHighDate [scenarioPage, scenarioPage2]] :=
  (C4_parallel_equals_single_worker castM2Trunc scenarioHighDate
    [scenarioPage, scenarioPage2] [[scenarioPage2], [scenarioPage]]
    [[scenarioPage, scenarioPage2]] (by simp) (List.Perm.swap _ _ _) (by simp)
    (List.Perm.refl _)).1

/-- C5: for the thread-local tables and valid-index lists that the workers
build with `ProcessTuples` over any page lists (each satisfies the sparsity
witness), the sorted result of `DoPostProcessing` (group keys, counts and sums,
in order) is the same for every permutation of the tables, whichever table
plays the role of worker 0, and it is defined when there is at least one
table. -/
theorem C5_merge_order_independent (castM2 : Numeric → Numeric) (high_date : Date)
    (assign : List (List LineitemPageQ1)) (workers : List Worker)
    (hp : (assign.map (runWorker castM2 high_date)).Perm workers) :
    (∀ w ∈ assign.map (runWorker castM2 high_date), Sparse w) ∧
    DoPostProcessing workers = DoPostProcessing (assign.map (runWorker castM2 high_date)) ∧
    (assign ≠ [] →
      DoPostProcessing (assign.map (runWorker castM2 high_date))
        = some (entriesInSlotOrder (mergedTable (assign.map (runWorker castM2 high_date))))) := by
  have hs : ∀ w ∈ assign.map (runWorker castM2 high_date), Sparse w := fun w hw => by
    obtain ⟨ps, _, rfl⟩ := List.mem_map.1 hw
    exact runWorker_sparse castM2 high_date ps
  have hst : ∀ w ∈ assign.map (runWorker castM2 high_date), Stamped w.1 := fun w hw => by
    obtain ⟨ps, _, rfl⟩ := List.mem_map.1 hw
    exact runWorker_stamped castM2 high_date ps
  exact ⟨hs, (DoPostProcessing_perm _ workers hp hs hst).1,
    fun hne => (DoPostProcessing_perm _ workers hp hs hst).2 (by simpa using hne)⟩

/-- C5 at the tables of two workers that processed one page each, merged in
both orders. -/
theorem C5_merge_order_independent_witness :
    DoPostProcessing [runWorker castM2Trunc scenarioHighDate [scenarioPage2],
        runWorker castM2Trunc scenarioHighDate [scenarioPage]]
      = DoPostProcessing ([[scenarioPage], [scenarioPage2]].map
          (runWorker castM2Trunc scenarioHighDate)) :=
  (C5_merge_order_independent castM2Trunc scenarioHighDate [[scenarioPage], [scenarioPage2]]
    [runWorker castM2Trunc scenarioHighDate [scenarioPage2],
      runWorker castM2Trunc scenarioHighDate [scenarioPage]] (List.Perm.swap _ _ _)).2.1

/-- C6, as amended: when the 64-bit counter cannot wrap (`num_swips +
num_threads * fetch_increment <= 2^64`) and `fetch_increment > 0`, then after
any interleaving of the workers' `fetch_add` steps every claimed morsel is the
non-empty range `[begin, min(num_swips, begin + fetch_increment))` with `begin
< num_swips`, the morsels are pairwise disjoint, no position is claimed twice,
no position at or beyond `num_swips` is claimed, and once some worker has
returned every position below `num_swips` is claimed exactly once. A step that
reads `begin >= num_swips` makes the worker return and claims nothing. -/
theorem C6_morsel_dispatch (num_swips fetch_increment num_threads : Nat)
    (schedule : List Nat) (hinc : 0 < fetch_increment)
    (hbound : num_swips + num_threads * fetch_increment ≤ 2 ^ 64)
    (hs : ∀ w ∈ schedule, w < num_threads) :
    (∀ c ∈ (runDispatch num_swips fetch_increment schedule).claims,
      c.begin_swip < c.end_swip ∧ c.begin_swip < num_swips ∧
      c.end_swip = min num_swips (c.begin_swip + fetch_increment)) ∧
    (runDispatch num_swips fetch_increment schedule).claims.Pairwise
      (fun a b => a.end_swip ≤ b.begin_swip) ∧
    (∀ p, timesClaimed (runDispatch num_swips fetch_increment schedule) p ≤ 1) ∧
    (∀ p, num_swips ≤ p →
      timesClaimed (runDispatch num_swips fetch_increment schedule) p = 0) ∧
    ((runDispatch num_swips fetch_increment schedule).returned ≠ [] →
      ∀ p, p < num_swips →
        timesClaimed (runDispatch num_swips fetch_increment schedule) p = 1) ∧
    (∀ (st : DispatchState) (w : Nat), w ∉ st.returned → num_swips ≤ st.current_swip →
      (fetchAddStep num_swips fetch_increment st w).claims = st.claims ∧
      w ∈ (fetchAddStep num_swips fetch_increment st w).returned) := by
  have hinv : DispatchInv num_swips fetch_increment num_threads
      (runDispatch num_swips fetch_increment schedule) :=
    runDispatch_inv num_swips fetch_increment num_threads hbound schedule hs
  generalize runDispatch num_swips fetch_increment schedule = st at hinv
  have hout : ∀ p, num_swips ≤ p → timesClaimed st p = 0 := by
    intro p hp
    unfold timesClaimed
    rw [List.length_eq_zero, List.filter_eq_nil_iff]
    intro c hc
    have := claims_in_range num_swips fetch_increment num_threads st hinv hinc c hc
    simp only [decide_eq_true_eq, not_and, not_lt]
    intro _
    rw [this.2.2]
    exact le_trans (min_le_left _ _) hp
  refine ⟨fun c hc => claims_in_range num_swips fetch_increment num_threads st hinv hinc c hc,
    claims_pairwise num_swips fetch_increment num_threads st hinv, ?_, hout, ?_, ?_⟩
  · intro p
    by_cases hp : p < num_swips
    · rw [timesClaimed_eq num_swips fetch_increment num_threads st hinv hinc p hp]
      split <;> omega
    · rw [hout p (not_lt.1 hp)]
      exact Nat.zero_le _
  · intro hret p hp
    rw [timesClaimed_eq num_swips fetch_increment num_threads st hinv hinc p hp]
    have hcov := hinv.2.2.2.2.2 hret
    have : p / fetch_increment < st.claims.length :=
      Nat.div_lt_of_lt_mul (by rw [Nat.mul_comm]; omega)
    rw [if_pos this]
  · intro st' w hw hge
    simp [fetchAddStep, hw, hge]

/-- C6 as amended, at ten swips, morsels of four and two workers that both run
until they return: the positions 0, 7 and 9 are each claimed exactly once. -/
theorem C6_morsel_dispatch_witness :
    timesClaimed (runDispatch 10 4 [0, 1, 0, 1, 1, 0]) 0 = 1 ∧
    timesClaimed (runDispatch 10 4 [0, 1, 0, 1, 1, 0]) 7 = 1 ∧
    timesClaimed (runDispatch 10 4 [0, 1, 0, 1, 1, 0]) 9 = 1 :=
  ⟨(C6_morsel_dispatch 10 4 2 [0, 1, 0, 1, 1, 0] (by decide) (by decide)
      (by decide)).2.2.2.2.1 (by decide) 0 (by decide),
    (C6_morsel_dispatch 10 4 2 [0, 1, 0, 1, 1, 0] (by decide) (by decide)
      (by decide)).2.2.2.2.1 (by decide) 7 (by decide),
    (C6_morsel_dispatch 10 4 2 [0, 1, 0, 1, 1, 0] (by decide) (by decide)
      (by decide)).2.2.2.2.1 (by decide) 9 (by decide)⟩

/-- C6 as stated fails for a `fetch_increment` that makes the 64-bit counter
wrap: with one swip and `fetch_increment = 2^63`, worker 0 claims `[0, 1)` and
returns on reading `2^63`; the counter is then back at 0, so worker 1 claims
`[0, 1)` again and position 0 is handed out twice. -/
theorem C6_counter_wrap_counterexample :
    0 < 2 ^ 63 ∧
    (runDispatch 1 (2 ^ 63) [0, 0, 1]).claims = [⟨0, 0, 1⟩, ⟨1, 0, 1⟩] ∧
    timesClaimed (runDispatch 1 (2 ^ 63) [0, 0, 1]) 0 = 2 := by
  decide

/-- C7: for workers that ran `ProcessTuples` over any page lists (at least one
worker), `DoPostProcessing` returns a sequence that is strictly increasing in
the lexicographic order of `(l_returnflag, l_linestatus)`, holds an entry of
group `(rf, ls)` exactly when the slot of that group is non-empty in some
worker's table, and holds no two entries of the same group. -/
theorem C7_result_sorted_one_entry_per_group (castM2 : Numeric → Numeric) (high_date : Date)
    (assign : List (List LineitemPageQ1)) (hne : assign ≠ []) :
    ∃ result_entries,
      DoPostProcessing (assign.map (runWorker castM2 high_date)) = some result_entries ∧
      result_entries.Pairwise entryLess ∧
      (∀ rf ls : Char,
        (∃ e ∈ result_entries, e.l_returnflag = rf ∧ e.l_linestatus = ls) ↔
          ∃ w ∈ assign.map (runWorker castM2 high_date), w.1 (hashTableIndex rf ls) ≠ none) ∧
      (result_entries.map (fun e => (e.l_returnflag, e.l_linestatus))).Nodup := by
  have hs : ∀ w ∈ assign.map (runWorker castM2 high_date), Sparse w := fun w hw => by
    obtain ⟨ps, _, rfl⟩ := List.mem_map.1 hw
    exact runWorker_sparse castM2 high_date ps
  have hst : ∀ w ∈ assign.map (runWorker castM2 high_date), Stamped w.1 := fun w hw => by
    obtain ⟨ps, _, rfl⟩ := List.mem_map.1 hw
    exact runWorker_stamped castM2 high_date ps
  have hm := mergedTable_stamped _ hst
  have hpw := entriesInSlotOrder_pairwise _ hm
  refine ⟨_, DoPostProcessing_eq _ (by simpa using hne) hs hst, hpw, ?_, ?_⟩
  · intro rf ls
    rw [← mergedTable_ne_none]
    constructor
    · rintro ⟨e, he, rfl, rfl⟩
      rw [(mem_entriesInSlotOrder _ hm e).1 he]
      simp
    · intro h
      obtain ⟨e, he⟩ := Option.ne_none_iff_exists'.1 h
      obtain ⟨h1, h2⟩ := hashTableIndex_inj (hm _ e he)
      exact ⟨e, (mem_entriesInSlotOrder _ hm e).2 (by rw [h1, h2]; exact he), h1, h2⟩
  · rw [List.Nodup, List.pairwise_map]
    refine hpw.imp ?_
    intro a b hab heq
    rw [entryLess_iff] at hab
    simp only [Prod.mk.injEq] at heq
    rw [heq.1, heq.2] at hab
    exact lt_irrefl _ hab

/-- C7 at two workers that processed one page each. -/
theorem C7_result_sorted_one_entry_per_group_witness :
    ∃ result_entries,
      DoPostProcessing ([[scenarioPage], [scenarioPage2]].map
        (runWorker castM2Trunc scenarioHighDate)) = some result_entries ∧
      result_entries.Pairwise entryLess ∧
      (∀ rf ls : Char,
        (∃ e ∈ result_entries, e.l_returnflag = rf ∧ e.l_linestatus = ls) ↔
          ∃ w ∈ [[scenarioPage], [scenarioPage2]].map (runWorker castM2Trunc scenarioHighDate),
            w.1 (hashTableIndex rf ls) ≠ none) ∧
      (result_entries.map (fun e => (e.l_returnflag, e.l_linestatus))).Nodup :=
  C7_result_sorted_one_entry_per_group castM2Trunc scenarioHighDate
    [[scenarioPage], [scenarioPage2]] (by simp)

/-- C8 fails on the code: a worker leaves its loop only through the `return`
of line 235, which ends the lambda, so the statements after the loop (lines
266-272) never run. In every terminating run (some claim returned `begin >=
num_swips`) the worker ends with all the scratch frames it allocated on entry
still allocated, one in synchronous mode and `num_ring_entries` otherwise, and
with the allocator slots as they were installed on entry. -/
theorem C8_worker_returns_without_cleanup (use_allocator : Bool)
    (num_ring_entries num_swips : Nat) (begins : List Nat) (res : WorkerResources)
    (h : worker use_allocator num_ring_entries num_swips begins = some res) :
    (∃ b ∈ begins, num_swips ≤ b) ∧
    res.scratch_frames = (if num_ring_entries = 0 then 1 else num_ring_entries) ∧
    0 < res.scratch_frames ∧
    res.allocator = (decide (num_ring_entries ≠ 0) && use_allocator) ∧
    res.sync_allocator = (decide (num_ring_entries ≠ 0) && use_allocator) := by
  unfold worker at h
  simp only at h
  split at h
  · rename_i res' hloop
    obtain ⟨h1, h2⟩ := workerLoop_returned _ _ _ _ hloop
    simp only [Option.some.injEq] at h
    subst h
    subst h1
    by_cases h0 : num_ring_entries = 0
    · subst h0
      exact ⟨h2, by simp, by simp, by simp, by simp⟩
    · have hpos : 0 < num_ring_entries := Nat.pos_of_ne_zero h0
      exact ⟨h2, by simp [h0], by simp [h0, hpos], by simp [h0], by simp [h0]⟩
  · rename_i res' hloop
    exact absurd hloop (workerLoop_not_fellThrough _ _ _ _)
  · cases h

/-- C8 on an asynchronous worker with 32 ring entries and five swips whose
claims return 0 and 32: the thread ends holding its 32 scratch frames and both
allocators. -/
theorem C8_worker_returns_without_cleanup_witness :
    worker true 32 5 [0, 32] = some ⟨32, true, true⟩ ∧
    0 < (⟨32, true, true⟩ : WorkerResources).scratch_frames :=
  ⟨by decide,
    (C8_worker_returns_without_cleanup true 32 5 [0, 32] ⟨32, true, true⟩ (by decide)).2.2.1⟩

/-- C9: for a data file of `size_of_data_file < 2^64` bytes with pages of at
least two bytes, let `n` be its number of pages. For every stage `i` in
`0..10`, the printed `num_cached_pages` is `i * ceil(n/10)` capped at `n`, it is
0 at stage 0 and `n` at stage 10; the chunk populated in stage `j` is the range
from the value printed at stage `j - 1` to the value printed at stage `j`, so
the chunks are contiguous and pairwise disjoint and those of stages `1..i` have
total length `num_cached_pages`; every position below `n` lies in the chunk of
exactly one stage, the positions populated up to stage `i` are the first
`num_cached_pages` entries of `swip_indexes` and after stage 10 all of them, in
order; and the frames appended up to stage `i` number `num_cached_pages`, never
more than the capacity reserved by the constructor. -/
theorem C9_cached_fraction_sweep (size_of_data_file kPageSize : Nat)
    (hfile : size_of_data_file < 2 ^ 64) (hpage : 2 ≤ kPageSize) (i : Nat) (hi : i ≤ 10) :
    num_cached_pages (GetSwips_num_pages size_of_data_file kPageSize) i
      = min (i * ceilDiv (GetSwips_num_pages size_of_data_file kPageSize) 10)
          (GetSwips_num_pages size_of_data_file kPageSize) ∧
    (GetSwips_num_pages size_of_data_file kPageSize
        ≤ 10 * ceilDiv (GetSwips_num_pages size_of_data_file kPageSize) 10 ∧
      ∀ r, GetSwips_num_pages size_of_data_file kPageSize ≤ 10 * r →
        ceilDiv (GetSwips_num_pages size_of_data_file kPageSize) 10 ≤ r) ∧
    num_cached_pages (GetSwips_num_pages size_of_data_file kPageSize) 0 = 0 ∧
    num_cached_pages (GetSwips_num_pages size_of_data_file kPageSize) 10
      = GetSwips_num_pages size_of_data_file kPageSize ∧
    (∀ j, 1 ≤ j → j ≤ 10 →
      populateOffset (GetSwips_num_pages size_of_data_file kPageSize) j
        = num_cached_pages (GetSwips_num_pages size_of_data_file kPageSize) (j - 1) ∧
      populateOffset (GetSwips_num_pages size_of_data_file kPageSize) j
          + populateSize (GetSwips_num_pages size_of_data_file kPageSize) j
        = num_cached_pages (GetSwips_num_pages size_of_data_file kPageSize) j) ∧
    (∀ j j', 1 ≤ j → j < j' → j' ≤ 10 →
      populateOffset (GetSwips_num_pages size_of_data_file kPageSize) j
          + populateSize (GetSwips_num_pages size_of_data_file kPageSize) j
        ≤ populateOffset (GetSwips_num_pages size_of_data_file kPageSize) j') ∧
    ((List.range i).map (fun j =>
        populateSize (GetSwips_num_pages size_of_data_file kPageSize) (j + 1))).sum
      = num_cached_pages (GetSwips_num_pages size_of_data_file kPageSize) i ∧
    (∀ p, p < GetSwips_num_pages size_of_data_file kPageSize →
      ((List.range 10).filter (fun j =>
        decide (populateOffset (GetSwips_num_pages size_of_data_file kPageSize) (j + 1) ≤ p
          ∧ p < populateOffset (GetSwips_num_pages size_of_data_file kPageSize) (j + 1)
              + populateSize (GetSwips_num_pages size_of_data_file kPageSize) (j + 1)))).length
        = 1) ∧
    (∀ swip_indexes : List Nat,
      swip_indexes.length = GetSwips_num_pages size_of_data_file kPageSize →
      populatedPositions swip_indexes i
        = swip_indexes.take
            (num_cached_pages (GetSwips_num_pages size_of_data_file kPageSize) i) ∧
      populatedPositions swip_indexes 10 = swip_indexes) ∧
    framesAfterStage (GetSwips_num_pages size_of_data_file kPageSize) i
      = num_cached_pages (GetSwips_num_pages size_of_data_file kPageSize) i ∧
    framesAfterStage (GetSwips_num_pages size_of_data_file kPageSize) i
      ≤ reservedFrames (GetSwips_num_pages size_of_data_file kPageSize) := by
  have hn := GetSwips_num_pages_lt size_of_data_file kPageSize hfile hpage
  generalize GetSwips_num_pages size_of_data_file kPageSize = n at hn
  have hchunk : ∀ j, 1 ≤ j → j ≤ 10 →
      populateOffset n j = num_cached_pages n (j - 1) ∧
      populateOffset n j + populateSize n j = num_cached_pages n j := by
    intro j h1 h10
    obtain ⟨j0, rfl⟩ : ∃ j0, j = j0 + 1 := ⟨j - 1, by omega⟩
    rw [populateEnd_eq n j0 hn (by omega), populateOffset_eq n j0 hn (by omega),
      Nat.add_sub_cancel, num_cached_pages_eq n j0 hn (by omega),
      num_cached_pages_eq n (j0 + 1) hn h10, specRun_next]
    exact ⟨rfl, rfl⟩
  have hle : num_cached_pages n i ≤ n := by
    rw [num_cached_pages_eq n i hn hi]
    exact min_le_right _ _
  have hfull : num_cached_pages n 10 = n := by
    rw [num_cached_pages_eq n 10 hn (by omega)]
    have := specRun_last n 10 (by omega)
    rw [specRun_next] at this
    exact this
  refine ⟨by rw [num_cached_pages_eq n i hn hi]; rfl,
    ⟨le_mul_ceilDiv n 10 (by omega), fun r hr => ceilDiv_le_of_le_mul n 10 r (by omega) hr⟩,
    ?_, hfull, hchunk, ?_, populateSize_sum n i hn hi, ?_, ?_,
    framesAfterStage_eq n i hn hi, ?_⟩
  · rw [num_cached_pages_eq n 0 hn (by omega)]
    exact specRun_first n 10
  · intro j j' h1 hjj h10
    obtain ⟨j0, rfl⟩ : ∃ j0, j = j0 + 1 := ⟨j - 1, by omega⟩
    obtain ⟨j1, rfl⟩ : ∃ j1, j' = j1 + 1 := ⟨j' - 1, by omega⟩
    rw [populateEnd_eq n j0 hn (by omega), populateOffset_eq n j1 hn (by omega)]
    exact specRun_mono n 10 j0 j1 (by omega)
  · intro p hp
    refine Eq.trans ?_ (specRun_count n 10 p (by omega) hp)
    congr 1
    apply List.filter_congr
    intro j hj
    have hj' := List.mem_range.1 hj
    rw [populateEnd_eq n j hn hj', populateOffset_eq n j hn hj']
  · intro swip_indexes hlen
    subst hlen
    refine ⟨populatedPositions_eq swip_indexes hn i hi, ?_⟩
    rw [populatedPositions_eq swip_indexes hn 10 (by omega), hfull]
    exact List.take_of_length_le (Nat.le_refl _)
  · rw [framesAfterStage_eq n i hn hi]
    exact hle

/-- C9 at a file of eleven pages of 4096 bytes: after the last stage all eleven
pages are cached and the cache holds no more frames than were reserved. -/
theorem C9_cached_fraction_sweep_witness :
    num_cached_pages (GetSwips_num_pages 45056 4096) 10 = GetSwips_num_pages 45056 4096 ∧
    framesAfterStage (GetSwips_num_pages 45056 4096) 10
      ≤ reservedFrames (GetSwips_num_pages 45056 4096) :=
  ⟨(C9_cached_fraction_sweep 45056 4096 (by decide) (by decide) 10 (by decide)).2.2.2.1,
    (C9_cached_fraction_sweep 45056 4096 (by decide) (by decide) 10
      (by decide)).2.2.2.2.2.2.2.2.2.2⟩

/-- C10: for every `size` and every task count `k > 0`, with run length `r =
ceil(size / k)`, the `k` runs `[min(i*r, size), min(min(i*r, size) + r, size))`
start at 0, each ends where the next begins, the last ends at `size`, they are
pairwise disjoint, and every position below `size` lies in exactly one of them.
The ranges computed by the asynchronous worker for a claimed `[begin, end)` of
length `size` (with `k = num_ring_entries`) are these runs shifted by `begin`,
and the ranges computed by `Cache::Populate` (with `k = 64`) are these runs. -/
theorem C10_task_fan_out (size k : Nat) (hk : 0 < k) :
    (size ≤ k * ceilDiv size k ∧ ∀ r, size ≤ k * r → ceilDiv size k ≤ r) ∧
    (specRun size k 0).1 = 0 ∧
    (∀ i, (specRun size k i).1 ≤ (specRun size k i).2) ∧
    (∀ i, (specRun size k i).2 = (specRun size k (i + 1)).1) ∧
    (specRun size k (k - 1)).2 = size ∧
    (∀ i j, i < j → (specRun size k i).2 ≤ (specRun size k j).1) ∧
    (∀ p, p < size →
      ((List.range k).filter (fun i =>
        decide ((specRun size k i).1 ≤ p ∧ p < (specRun size k i).2))).length = 1) ∧
    (∀ begin end_swip i, begin ≤ end_swip → end_swip - begin = size → end_swip < 2 ^ 63 →
      k < 2 ^ 32 → i < k →
      asyncTaskRange begin end_swip k i
        = (begin + (specRun size k i).1, begin + (specRun size k i).2)) ∧
    (k = kNumConcurrentTasks → size < 2 ^ 63 → ∀ i, i < k →
      populateTaskRange size i = specRun size k i) := by
  refine ⟨⟨le_mul_ceilDiv size k hk, fun r hr => ceilDiv_le_of_le_mul size k r hk hr⟩,
    specRun_first size k, specRun_le size k, specRun_next size k, specRun_last size k hk,
    specRun_mono size k, fun p hp => specRun_count size k p hk hp, ?_, ?_⟩
  · intro begin end_swip i hbe hsize hend hk32 hi
    rw [← hsize]
    exact asyncTaskRange_eq begin end_swip k i hk hk32 hbe hend hi
  · intro hk64 hs i hi
    subst hk64
    exact populateTaskRange_eq size i hs hi

/-- C10 at a claimed range `[10, 17)` shared by four tasks: task 1 is given
`[12, 14)`, run 1 of seven positions over four tasks shifted by 10. -/
theorem C10_task_fan_out_witness :
    asyncTaskRange 10 17 4 1 = (10 + (specRun 7 4 1).1, 10 + (specRun 7 4 1).2) :=
  (C10_task_fan_out 7 4 (by decide)).2.2.2.2.2.2.2.1 10 17 1 (by decide) (by decide)
    (by decide) (by decide) (by decide)


/-- C11: for every `allocation_size > 0` and `num_blocks > 0` (a `uint16_t`)
with `allocation_size * num_blocks < 2^32`, and every sequence of calls in
which `deallocate` is applied to outstanding blocks only, `allocate` never
reads the back of an empty free list, and in every state reached: the free
list followed by the outstanding blocks is a rearrangement, without
duplicates, of the blocks at the offsets `j * allocation_size`, `j <
num_blocks`, of every slab created so far, so that the two are disjoint; every
such block lies inside its slab; no two outstanding blocks overlap; the next
`allocate` returns a block that is not outstanding and overlaps no outstanding
block; and the slabs present are still present, in place, after any further
calls. -/
theorem C11_fixed_allocator_blocks (allocation_size num_blocks : Nat)
    (has : 0 < allocation_size) (hnb : 0 < num_blocks) (hnb16 : num_blocks < 2 ^ 16)
    (hsize : allocation_size * num_blocks < 2 ^ 32) (calls : List AllocatorCall) :
    runAllocator ⟨FixedAllocator.init allocation_size num_blocks, []⟩ calls
      ≠ CallResult.popFromEmpty ∧
    ∀ st, runAllocator ⟨FixedAllocator.init allocation_size num_blocks, []⟩ calls
        = CallResult.ok st →
      (st.fixed.free_list ++ st.outstanding).Perm
        (allBlocks allocation_size num_blocks st.fixed.allocator.length) ∧
      (st.fixed.free_list ++ st.outstanding).Nodup ∧
      (∀ p ∈ st.fixed.free_list, p ∉ st.outstanding) ∧
      (∀ p ∈ st.fixed.free_list ++ st.outstanding,
        ∃ size, st.fixed.allocator[p.slab]? = some size ∧
          p.offset + allocation_size ≤ size) ∧
      (∀ p ∈ st.outstanding, ∀ q ∈ st.outstanding, p ≠ q →
        ¬ blocksOverlap allocation_size p q) ∧
      (∃ result fixed, st.fixed.allocate = some (result, fixed) ∧
        result ∉ st.outstanding ∧
        ∀ q ∈ st.outstanding, ¬ blocksOverlap allocation_size result q) ∧
      (∀ calls' st',
        runAllocator ⟨FixedAllocator.init allocation_size num_blocks, []⟩ (calls ++ calls')
          = CallResult.ok st' →
        st.fixed.allocator <+: st'.fixed.allocator) := by
  have hinit := allocatorInv_init allocation_size num_blocks hnb hnb16 hsize
  have hrun := runAllocator_spec allocation_size num_blocks has hnb hsize calls _ hinit
  refine ⟨?_, ?_⟩
  · rcases hrun with h | ⟨st, h, _, _⟩
    · rw [h]; exact fun h' => by cases h'
    · rw [h]; exact fun h' => by cases h'
  · intro st hst
    have hinv : AllocatorInv allocation_size num_blocks st := by
      rcases hrun with h | ⟨st1, h, h1, _⟩
      · rw [h] at hst; cases hst
      · rw [h] at hst
        simp only [CallResult.ok.injEq] at hst
        exact hst ▸ h1
    have hperm := hinv.1
    have hnodup : (st.fixed.free_list ++ st.outstanding).Nodup :=
      (hperm.nodup_iff).2 (allBlocks_nodup _ _ _ has)
    have hmem : ∀ p ∈ st.fixed.free_list ++ st.outstanding,
        p ∈ allBlocks allocation_size num_blocks st.fixed.allocator.length :=
      fun p hp => hperm.mem_iff.1 hp
    obtain ⟨result, fixed, hal, hnot, _, hinv'⟩ :=
      allocate_spec allocation_size num_blocks has hnb hsize st hinv
    refine ⟨hperm, hnodup, ?_, ?_, ?_, ⟨result, fixed, hal, hnot, ?_⟩, ?_⟩
    · intro p hp hq
      exact (List.nodup_append.1 hnodup).2.2 hp hq
    · intro p hp
      obtain ⟨hs, ho⟩ := allBlocks_in_slab _ _ _ p (hmem p hp)
      refine ⟨st.fixed.allocator[p.slab], List.getElem?_eq_getElem hs, ?_⟩
      rw [hinv.2.1 _ (List.getElem_mem hs)]
      exact ho
    · intro p hp q hq hne
      exact allBlocks_not_overlap _ _ _ p q
        (hmem p (List.mem_append_right _ hp)) (hmem q (List.mem_append_right _ hq)) hne
    · intro q hq
      have hperm' := hinv'.1
      have hnd' : (fixed.free_list ++ result :: st.outstanding).Nodup :=
        (hperm'.nodup_iff).2 (allBlocks_nodup _ _ _ has)
      have hr : result ∈ allBlocks allocation_size num_blocks fixed.allocator.length :=
        hperm'.mem_iff.1 (List.mem_append_right _ (List.mem_cons_self _ _))
      have hq' : q ∈ allBlocks allocation_size num_blocks fixed.allocator.length :=
        hperm'.mem_iff.1 (List.mem_append_right _ (List.mem_cons_of_mem _ hq))
      exact allBlocks_not_overlap _ _ _ result q hr hq' (fun h => hnot (h ▸ hq))
    · intro calls' st' hst'
      rw [runAllocator_append _ calls calls' st hst] at hst'
      rcases runAllocator_spec allocation_size num_blocks has hnb hsize calls' st hinv with
        h | ⟨st2, h, _, hpre⟩
      · rw [h] at hst'; cases hst'
      · rw [h] at hst'
        simp only [CallResult.ok.injEq] at hst'
        exact hst' ▸ hpre

/-- C11 at blocks of 48 bytes, three to a slab: two blocks are allocated, one
is returned, and three more allocations, the last of which needs a second
slab, never find the free list empty. -/
theorem C11_fixed_allocator_blocks_witness :
    runAllocator ⟨FixedAllocator.init 48 3, []⟩
        [AllocatorCall.allocate, AllocatorCall.allocate, AllocatorCall.deallocate ⟨0, 96⟩,
          AllocatorCall.allocate, AllocatorCall.allocate, AllocatorCall.allocate]
      ≠ CallResult.popFromEmpty :=
  (C11_fixed_allocator_blocks 48 3 (by decide) (by decide) (by decide) (by decide)
    [AllocatorCall.allocate, AllocatorCall.allocate, AllocatorCall.deallocate ⟨0, 96⟩,
      AllocatorCall.allocate, AllocatorCall.allocate, AllocatorCall.allocate]).1

end TpchQ1
